import Mathlib

/-!
# Verification of the poe editor's text-storage core

This file gives a shallow embedding of the gap buffer
(`gapbuffer/gap.go`) and the rune-aware text buffer
(`editor/buffer.go`) of the poe editor, and proves / refutes the
frozen specification claims about them.

Modelling conventions:
* Go byte slices become `List Nat` (each element a byte value); Go
  `int` becomes `Int` where a value can be negative in the source
  (offsets handed in by callers, the text buffer's dot) and `Nat`
  where the source keeps it non-negative (gap start/end).
* Spare slice capacity is not observable through the verified
  operations, so the model identifies `cap` with `len`; the growth
  arithmetic in `grow` is kept literally, only with `cap` read as the
  current length.
* A Go `panic` is modelled by `Option`/`none` on the operations that
  can reach one.
* Errors (`io.EOF`, `ErrOutOfRange`, `errors.New ...`) are modelled
  with `Except`/`Option` values.
-/

set_option maxRecDepth 40000

namespace Poe

/-- Equality of `Except` results is decidable (needed so witnesses
can be settled by `decide`). -/
instance {ε α : Type} [DecidableEq ε] [DecidableEq α] : DecidableEq (Except ε α) := fun a b =>
  match a, b with
  | .ok x, .ok y =>
      if h : x = y then .isTrue (by rw [h])
      else .isFalse (fun hc => by cases hc; exact h rfl)
  | .error e, .error f =>
      if h : e = f then .isTrue (by rw [h])
      else .isFalse (fun hc => by cases hc; exact h rfl)
  | .ok _, .error _ => .isFalse (fun hc => by cases hc)
  | .error _, .ok _ => .isFalse (fun hc => by cases hc)

/-- Errors surfaced by the gap buffer: `ErrOutOfRange` and `io.EOF`. -/
inductive GapErr where
  | outOfRange
  | eof
deriving DecidableEq, Repr

/-- The gap buffer (`gapbuffer/gap.go`, first revision in the file).

Go fields: `buf []byte`, `start int`, `end int`.  `end` is a Lean
keyword, so the field is called `gapEnd` here.  The `bootstrap`
array is an allocation detail folded into `grow` below. -/
structure GapBuffer where
  data : List Nat
  start : Nat
  gapEnd : Nat
deriving DecidableEq, Repr

namespace GapBuffer

/-- The zero value `gapbuffer.Buffer{}` (nil slice, start = end = 0),
which is how `editor/buffer.go` creates its buffer (`initBuffer`). -/
def empty : GapBuffer := ⟨[], 0, 0⟩

/-- `gapLen` — length of the gap. -/
def gapLen (b : GapBuffer) : Nat := b.gapEnd - b.start

/-- `Len` — length of actual data: `len(b.buf) - b.gapLen()`. -/
def len (b : GapBuffer) : Nat := b.data.length - b.gapLen

/-- `ByteAt` — the byte at a logical offset, ignoring and hiding the
gap.  Mirrors the Go source: the offset is first shifted past the gap
when it is at or beyond the gap start, then range-checked. -/
def byteAt (b : GapBuffer) (offset : Int) : Except GapErr Nat :=
  let off := if offset ≥ (b.start : Int) then offset + (b.gapLen : Int) else offset
  if off < 0 then .error .outOfRange
  else if off ≥ (b.data.length : Int) then .error .eof
  else .ok (b.data.getD off.toNat 0)

/-- `forward` — move the gap one byte forward (no-op at the right
edge): `buf[start] = buf[end]; start++; end++`. -/
def forward (b : GapBuffer) : GapBuffer :=
  if b.gapEnd ≥ b.data.length then b
  else { data := b.data.set b.start (b.data.getD b.gapEnd 0),
         start := b.start + 1, gapEnd := b.gapEnd + 1 }

/-- `backward` — move the gap one byte backwards (no-op at the left
edge): `buf[end-1] = buf[start-1]; start--; end--`. -/
def backward (b : GapBuffer) : GapBuffer :=
  if b.start ≤ 0 then b
  else { data := b.data.set (b.gapEnd - 1) (b.data.getD (b.start - 1) 0),
         start := b.start - 1, gapEnd := b.gapEnd - 1 }

/-- `n` iterations of `forward`: the loop `for b.start < newpos`
of `Seek`, which runs exactly `newpos - start` times. -/
def fwdIter : Nat → GapBuffer → GapBuffer
  | 0, b => b
  | n + 1, b => fwdIter n (forward b)

/-- `n` iterations of `backward`: the loop `for b.start > newpos`
of `Seek`, which runs exactly `start - newpos` times. -/
def bwdIter : Nat → GapBuffer → GapBuffer
  | 0, b => b
  | n + 1, b => bwdIter n (backward b)

/-- The body of `Seek` for a non-negative target position.  The Go
source clamps `newpos > Len()` by a recursive call `b.Seek(b.Len())`,
then walks the gap one byte at a time in the needed direction. -/
def seekNat (b : GapBuffer) (newpos : Nat) : GapBuffer :=
  let np := if newpos > b.len then b.len else newpos
  if np < b.start then bwdIter (b.start - np) b
  else if np > b.start then fwdIter (np - b.start) b
  else b

/-- `Seek` of the first revision (gap.go lines 76–97): a negative
position hits `panic("index below zero")`, modelled as `none`. -/
def seek (b : GapBuffer) (newpos : Int) : Option GapBuffer :=
  if newpos < 0 then none
  else some (b.seekNat newpos.toNat)

/-- `Seek` of the second revision (gap.go lines 280–300): a negative
position is clamped by the recursive call `b.Seek(0)`; `Int.toNat`
performs exactly that clamp. -/
def seekClamp (b : GapBuffer) (newpos : Int) : GapBuffer :=
  b.seekNat newpos.toNat

/-- `Delete` — expand the gap by one byte to the left, returning the
deleted byte; no-op returning 0 when the gap start is at 0. -/
def delete (b : GapBuffer) : GapBuffer × Nat :=
  if (b.start : Int) - 1 < 0 then (b, 0)
  else ({ b with start := b.start - 1 }, b.data.getD (b.start - 1) 0)

/-- The delete loop of the text buffer's `commit` (`HDelete` case):
`for i := n; i > 0; i-- { b.buf.Delete() }`, the returned bytes
discarded. -/
def deleteIter : Nat → GapBuffer → GapBuffer
  | 0, b => b
  | n + 1, b => deleteIter n b.delete.1

/-- `grow` — enlarge the backing storage when the gap is empty.
The nil-buffer branch builds the 64-byte bootstrap array and appends
a same-sized zero fill (total length 128, gap covering everything).
Otherwise the gap is parked at the end, the storage is extended by
`exp + 1` zero bytes (`exp` = capacity after appending one byte,
read as the length here) and the gap end moves past the extension,
after which the gap walks back to the old position. -/
def grow (b : GapBuffer) : GapBuffer :=
  if b.data.length = 0 then
    { data := List.replicate 128 0, start := 0, gapEnd := 128 }
  else
    let oldpos := b.start
    let b1 := b.seekNat b.data.length
    let d1 := b1.data ++ [0]
    let exp := d1.length
    let b2 : GapBuffer :=
      { data := d1 ++ List.replicate exp 0,
        start := b1.start, gapEnd := b1.gapEnd + exp + 1 }
    b2.seekNat oldpos

/-- One iteration of the `Write` loop: grow when the gap is empty,
then `buf[start] = c; start++`. -/
def write1 (b : GapBuffer) (c : Nat) : GapBuffer :=
  let b := if b.gapLen = 0 then b.grow else b
  { b with data := b.data.set b.start c, start := b.start + 1 }

/-- `Write` — insert the bytes of `p` at the current gap position.
The returned count is `p.length` and the returned error is nil in
the source, so only the buffer is returned here. -/
def write (b : GapBuffer) (p : List Nat) : GapBuffer :=
  p.foldl write1 b

/-- `Bytes` — the logical content.  The source allocates a slice of
length `Len()` and fills it through `ReadAt(_, 0)`, whose loop copies
`ByteAt(i)` for `i = 0 .. Len()-1` (no error can occur in range). -/
def bytes (b : GapBuffer) : List Nat :=
  (List.range b.len).map fun (i : Nat) => ((b.byteAt (i : Int)).toOption.getD 0)

/-- `ReadAt` into a fresh zero-initialised slice of length `count`.
The loop copies `ByteAt(offset+i)` while `i < count` and the offset
is below `Len()`; the untouched tail of the destination keeps its
zero bytes.  (The in-range `ByteAt` calls cannot fail.) -/
def readAt (b : GapBuffer) (count : Nat) (offset : Int) : Except GapErr (List Nat) :=
  if offset < 0 then .error .outOfRange
  else if offset ≥ (b.len : Int) then .error .eof
  else
    let avail := min count (b.len - offset.toNat)
    .ok ((List.range avail).map (fun (i : Nat) => ((b.byteAt (offset + (i : Int))).toOption.getD 0))
         ++ List.replicate (count - avail) 0)

/-- Wellformedness of a gap buffer: the gap is a subrange of the
storage.  Every reachable state satisfies this. -/
def WF (b : GapBuffer) : Prop := b.start ≤ b.gapEnd ∧ b.gapEnd ≤ b.data.length

instance (b : GapBuffer) : Decidable b.WF := by unfold WF; infer_instance

/-- The abstraction to a flat byte sequence: everything before the
gap followed by everything after it. -/
def abs (b : GapBuffer) : List Nat := b.data.take b.start ++ b.data.drop b.gapEnd

end GapBuffer

/-- The operation alphabet of the refinement claim: `Seek`, `Write`
and `Delete` on the gap buffer.  Seek targets are the reference
model's valid (non-negative) positions; out-of-range targets are
still allowed and clamped.  (A negative seek target panics in the
first revision — that is claim C6's subject, not part of the
flat-model refinement.) -/
inductive GapOp where
  | seek (pos : Nat)
  | write (p : List Nat)
  | delete
deriving DecidableEq, Repr

/-- One gap-buffer step of the operation alphabet. -/
def gapStep (b : GapBuffer) : GapOp → GapBuffer
  | .seek pos => b.seekNat pos
  | .write p => b.write p
  | .delete => b.delete.1

/-- Run a sequence of operations on an initially empty gap buffer. -/
def runGap (ops : List GapOp) : GapBuffer := ops.foldl gapStep .empty

/-- The reference flat-array model: the logical content as a plain
byte sequence plus the edit position. -/
structure FlatModel where
  content : List Nat
  pos : Nat
deriving DecidableEq, Repr

/-- Reference semantics: seek clamps into `[0, length]`, write
inserts at the position, delete removes the byte just before it. -/
def flatStep (s : FlatModel) : GapOp → FlatModel
  | .seek p => { s with pos := min p s.content.length }
  | .write p => { content := s.content.take s.pos ++ p ++ s.content.drop s.pos,
                  pos := s.pos + p.length }
  | .delete =>
      if s.pos = 0 then s
      else { content := s.content.take (s.pos - 1) ++ s.content.drop s.pos,
             pos := s.pos - 1 }

/-- Run the reference model from empty. -/
def runFlat (ops : List GapOp) : FlatModel := ops.foldl flatStep ⟨[], 0⟩

/-! ## The rune-aware text buffer (`editor/buffer.go`)

The text buffer wraps the (first-revision) gap buffer with UTF-8
decoding, the dot `(q0, q1)`, a sequential read cursor `off`, and
undo/redo history.  File metadata (`file`, checksums) is out of
scope; the `what`/`dirty` fields are kept because `Write`/`Delete`
touch them.  A zero-value buffer has `what = BufferFile = 0`. -/

/-- `utf8.RuneStart`: not a continuation byte (`c & 0xC0 != 0x80`). -/
def runeStartB (c : Nat) : Bool := c.land 0xC0 != 0x80

/-- Model of Go's `unicode/utf8.DecodeRune` (an external standard
library function): decodes the first rune of the byte list, with the
standard acceptance ranges for 2-, 3- and 4-byte encodings;
an invalid or truncated encoding yields (`RuneError` = 0xFFFD, 1),
the empty input (0xFFFD, 0). -/
def decodeRune (l : List Nat) : Nat × Nat :=
  match l with
  | [] => (0xFFFD, 0)
  | b0 :: rest =>
    if b0 < 0x80 then (b0, 1)
    else if b0 < 0xC2 then (0xFFFD, 1)
    else if b0 < 0xE0 then
      match rest with
      | b1 :: _ =>
        if 0x80 ≤ b1 ∧ b1 ≤ 0xBF then ((b0.land 0x1F) * 0x40 + b1.land 0x3F, 2)
        else (0xFFFD, 1)
      | [] => (0xFFFD, 1)
    else if b0 < 0xF0 then
      match rest with
      | b1 :: b2 :: _ =>
        let lo1 := if b0 = 0xE0 then 0xA0 else 0x80
        let hi1 := if b0 = 0xED then 0x9F else 0xBF
        if lo1 ≤ b1 ∧ b1 ≤ hi1 ∧ 0x80 ≤ b2 ∧ b2 ≤ 0xBF then
          ((b0.land 0xF) * 0x1000 + (b1.land 0x3F) * 0x40 + b2.land 0x3F, 3)
        else (0xFFFD, 1)
      | _ => (0xFFFD, 1)
    else if b0 < 0xF5 then
      match rest with
      | b1 :: b2 :: b3 :: _ =>
        let lo1 := if b0 = 0xF0 then 0x90 else 0x80
        let hi1 := if b0 = 0xF4 then 0x8F else 0xBF
        if lo1 ≤ b1 ∧ b1 ≤ hi1 ∧ 0x80 ≤ b2 ∧ b2 ≤ 0xBF ∧ 0x80 ≤ b3 ∧ b3 ≤ 0xBF then
          ((b0.land 0x7) * 0x40000 + (b1.land 0x3F) * 0x1000 +
            (b2.land 0x3F) * 0x40 + b3.land 0x3F, 4)
        else (0xFFFD, 1)
      | _ => (0xFFFD, 1)
    else (0xFFFD, 1)

/-- Model of Go's `unicode.IsLetter` restricted to the ASCII range —
the only code points the word-scan claims exercise. -/
def isLetter (r : Nat) : Bool := (0x41 ≤ r && r ≤ 0x5A) || (0x61 ≤ r && r ≤ 0x7A)

/-- Model of Go's `unicode.IsDigit` restricted to the ASCII range. -/
def isDigit (r : Nat) : Bool := 0x30 ≤ r && r ≤ 0x39

/-- The word-scan guard `unicode.IsLetter(r) || unicode.IsDigit(r)`. -/
def isAlnum (r : Nat) : Bool := isLetter r || isDigit r

/-- `HistoryAction`: `HInsert | HDelete`. -/
inductive HistoryAction where
  | hInsert
  | hDelete
deriving DecidableEq, Repr

/-- A recorded reversible edit. -/
structure Change where
  offset : Int
  action : HistoryAction
  content : List Nat
deriving DecidableEq, Repr

/-- The two-stack undo/redo log. -/
structure History where
  done_ : List Change
  recall_ : List Change
deriving DecidableEq, Repr

namespace History

/-- `Do` — push onto the done stack, clear the recall stack.
(`done`, `recall` and `do` collide with Lean tokens, hence the
underscore suffixes.) -/
def do_ (h : History) (c : Change) : History :=
  { done_ := h.done_ ++ [c], recall_ := [] }

/-- `Undo` — pop the last done change, push the original (by-value
copy) onto `recall`, and return the change with its action reversed.
The reversal happens on the local copy after the `recall` append, so
the recall stack keeps the original record. -/
def undo (h : History) : Except String (Change × History) :=
  match h.done_.getLast? with
  | none => .error "no history"
  | some lastdone =>
      let h2 : History := { done_ := h.done_.dropLast, recall_ := h.recall_ ++ [lastdone] }
      let inverted : Change :=
        { lastdone with
          action := match lastdone.action with
            | .hInsert => .hDelete
            | .hDelete => .hInsert }
      .ok (inverted, h2)

/-- `Redo` — pop the last recalled change, push it back onto `done`
and return it unchanged. -/
def redo (h : History) : Except String (Change × History) :=
  match h.recall_.getLast? with
  | none => .error "no recall history"
  | some lastrecall =>
      .ok (lastrecall, { done_ := h.done_ ++ [lastrecall], recall_ := h.recall_.dropLast })

end History

/-- The text buffer (`editor.Buffer`).  The scratch field `runeBuf`
is not part of the state: it is remodelled as a fresh zeroed 4-byte
destination on every `ReadRuneAt` (its stale tail is never examined
when the decoded rune is wholly in range). -/
structure TBuf where
  buf : GapBuffer
  q0 : Int
  q1 : Int
  off : Int
  lastRune : Nat
  history : History
  what : Nat
  dirty : Bool
deriving DecidableEq, Repr

namespace TBuf

/-- A fresh buffer: zero-value `editor.Buffer` (with the gap buffer
already in its zero value, as `initBuffer` produces). -/
def empty : TBuf := ⟨GapBuffer.empty, 0, 0, 0, 0, ⟨[], []⟩, 0, false⟩

/-- `Len` — byte length of the content. -/
def len (b : TBuf) : Nat := b.buf.len

/-- `String()` — the entire content (as bytes here). -/
def content (b : TBuf) : List Nat := b.buf.bytes

/-- The byte a discarded-error `ByteAt` call yields:
`c, _ := b.buf.ByteAt(q)` leaves `c = 0` when `ByteAt` fails. -/
def byteAtD (g : GapBuffer) (q : Int) : Nat := (g.byteAt q).toOption.getD 0

/-- The rune-start backup loop shared by `SetDot`, `Seek` and
`Delete`: `for !utf8.RuneStart(c) { q--; c, _ = ByteAt(q) }` with the
byte read through `byteAtD`.  The loop terminates because a failed
read yields byte 0, which satisfies `RuneStart`, so it stops no lower
than `-1`; the fuel `(q+2).toNat` covers every guard evaluation the
loop can make, so the fuel branch is never the one that answers
(structural recursion keeps the function kernel-computable). -/
def backScanF (g : GapBuffer) : Nat → Int → Int
  | 0, q => q
  | fuel + 1, q => if runeStartB (byteAtD g q) then q else backScanF g fuel (q - 1)

/-- The backup loop with its exact fuel. -/
def backScan (g : GapBuffer) (q : Int) : Int := backScanF g (q + 2).toNat q

/-- The error-propagating rune-start backup loop of `ReadRuneAt`:
unlike `backScan` it returns the `ByteAt` error as soon as one
occurs.  `c` is the byte already read at `q`.  A successful `ByteAt`
implies a non-negative position, so from the caller's `q ≥ 0` the
fuel `(q+2).toNat` outlasts the loop. -/
def runeScanEF (g : GapBuffer) : Nat → Int → Nat → Except GapErr (Int × Nat)
  | 0, q, c => .ok (q, c)
  | fuel + 1, q, c =>
    if runeStartB c then .ok (q, c)
    else
      match g.byteAt (q - 1) with
      | .error e => .error e
      | .ok c2 => runeScanEF g fuel (q - 1) c2

/-- The error-propagating backup loop with its exact fuel. -/
def runeScanE (g : GapBuffer) (q : Int) (c : Nat) : Except GapErr (Int × Nat) :=
  runeScanEF g (q + 2).toNat q c

/-- `ReadRuneAt` — decode the rune at (or immediately before)
`offset`, leaving the read cursor untouched.  ASCII fast path for
bytes below `utf8.RuneSelf` (0x80); otherwise a 4-byte `ReadAt`
window is decoded with `utf8.DecodeRune`. -/
def readRuneAt (b : TBuf) (offset : Int) : Except GapErr (Nat × Nat) := do
  let c ← b.buf.byteAt offset
  let sc ← runeScanE b.buf offset c
  if sc.2 < 0x80 then
    pure (sc.2, 1)
  else do
    let win ← b.buf.readAt 4 sc.1
    pure (decodeRune win)

/-- `ReadRune` — decode at the read cursor and advance it by the
decoded size; on an error the Go named results leave `r = 0`,
`size = 0`, so the cursor does not move and `lastRune` becomes 0. -/
def readRune (b : TBuf) : TBuf × Except GapErr (Nat × Nat) :=
  match b.readRuneAt b.off with
  | .ok (r, size) => ({ b with off := b.off + size, lastRune := r }, .ok (r, size))
  | .error e => ({ b with lastRune := 0 }, .error e)

/-- `UnreadRune` — decode the rune ending just before the cursor and
move the cursor to its start; on an error the cursor is restored. -/
def unreadRune (b : TBuf) : TBuf × Except GapErr (Nat × Nat) :=
  let b1 : TBuf := { b with off := b.off - 1 }
  match b1.readRuneAt b1.off with
  | .error e => ({ b1 with off := b1.off + 1 }, .error e)
  | .ok (r, size) => ({ b1 with off := b1.off + 1 - size }, .ok (r, size))

/-- `ReadDot` — the selected bytes; empty for a collapsed or
unreadable dot.  (The Go code allocates a `q1-q0`-byte destination
and `ReadAt` fills it, leaving trailing zero bytes when the range
sticks out past the end.) -/
def readDot (b : TBuf) : List Nat :=
  if b.q0 = b.q1 then []
  else
    match b.buf.readAt (b.q1 - b.q0).toNat b.q0 with
    | .error _ => []
    | .ok l => l

/-- `SetDot` — clamp both ends into `[0, Len]`, force `q0 ≤ q1` by
collapsing, then back both ends up to rune starts.  The returned
error is the literal `nil`. -/
def setDot (b : TBuf) (q0 q1 : Int) : TBuf × (Int × Int) × Option String :=
  let L : Int := (b.len : Int)
  let q0 := if q0 < 0 then 0 else q0
  let q1 := if q1 < 0 then 0 else q1
  let q0 := if q0 ≥ L then L else q0
  let q1 := if q1 ≥ L then L else q1
  let q0 := if q0 > q1 then q1 else q0
  let q1 := if q1 < q0 then q0 else q1
  let q0 := backScan b.buf q0
  let q1 := backScan b.buf q1
  ({ b with q0 := q0, q1 := q1 }, (q0, q1), none)

/-- `Seek` — `io.Seeker` whence values are `SeekStart = 0`,
`SeekCurrent = 1`, `SeekEnd = 2`.  Note the source assigns
`b.off = offset` before the switch, so the `SeekCurrent` arm adds
`offset` to that fresh value, not to the previous cursor. -/
def seek (b : TBuf) (offset whence : Int) : TBuf × Except String Int :=
  let b1 : TBuf := { b with off := offset }
  if whence = 0 ∨ whence = 1 ∨ whence = 2 then
    let newOff : Int :=
      if whence = 0 then offset
      else if whence = 1 then b1.off + offset
      else (b1.len : Int) + offset
    let b2 : TBuf := { b1 with off := newOff }
    let b3 : TBuf := { b2 with off := backScan b2.buf b2.off }
    (b3, .ok b3.off)
  else (b1, .error "invalid whence")

/-- `SeekDot` — collapse the dot to a single point given by the seek
semantics, through `SetDot`. -/
def seekDot (b : TBuf) (offset whence : Int) : TBuf × Except String Int :=
  if whence = 0 then
    let r := b.setDot offset offset
    (r.1, .ok r.2.1.1)
  else if whence = 1 then
    let r := b.setDot (b.q0 + offset) (b.q0 + offset)
    (r.1, .ok r.2.1.1)
  else if whence = 2 then
    let r := b.setDot ((b.len : Int) + offset) ((b.len : Int) + offset)
    (r.1, .ok r.2.1.1)
  else (b, .error "invalid whence")

/-- `commit` — apply a Change to the gap buffer: Insert seeks to the
offset and writes; Delete seeks past the doomed bytes and deletes
them one at a time.  The gap buffer `Seek` of this revision panics on
a negative target (`none`).  The `default` branch of the Go switch is
unreachable for the two-constructor action type. -/
def commit (b : TBuf) (c : Change) : Option (TBuf × Nat) :=
  match c.action with
  | .hInsert =>
    match b.buf.seek c.offset with
    | none => none
    | some g => some ({ b with buf := g.write c.content }, c.content.length)
  | .hDelete =>
    let n := c.content.length
    match b.buf.seek (c.offset + (n : Int)) with
    | none => none
    | some g => some ({ b with buf := GapBuffer.deleteIter n g }, n)

/-- The shared tail of `Delete`: record the Delete change for the
current dot, commit it, push it on history, and mark dirty. -/
def deleteCore (b : TBuf) : Option (TBuf × Nat) :=
  let c : Change := ⟨b.q0, .hDelete, b.readDot⟩
  match b.commit c with
  | none => none
  | some (b2, n) =>
    let b3 : TBuf := { b2 with history := b2.history.do_ c }
    let b4 : TBuf := if b3.what = 0 then { b3 with dirty := true } else b3
    some (b4, n)

/-- `Delete` — with an empty dot, move `q0` back over one rune
(`q0--` then the rune-start loop) and return `(0, nil)` early if that
went below zero — leaving the decremented `q0` in place; otherwise
delete the dot. -/
def delete (b : TBuf) : Option (TBuf × Nat) :=
  if b.readDot.length = 0 then
    let q := backScan b.buf (b.q0 - 1)
    if q < 0 then some ({ b with q0 := q }, 0)
    else deleteCore { b with q0 := q }
  else deleteCore b

/-- The insert-and-reseek tail of `Write`: record and commit an
Insert change at the current `q0`, push it on history, collapse the
dot after the insertion via `SeekDot(n, SeekCurrent)`, mark dirty. -/
def writeTail (b2 : TBuf) (p : List Nat) : Option (TBuf × Nat) :=
  let c : Change := ⟨b2.q0, .hInsert, p⟩
  match b2.commit c with
  | none => none
  | some (b3, n) =>
    let b4 : TBuf := { b3 with history := b3.history.do_ c }
    let b5 := (b4.seekDot (n : Int) 1).1
    let b6 : TBuf := if b5.what = 0 then { b5 with dirty := true } else b5
    some (b6, n)

/-- `Write` proper: the pre-delete of a non-empty dot, then the
shared tail. -/
def write (b : TBuf) (p : List Nat) : Option (TBuf × Nat) :=
  if 0 < b.readDot.length then
    match b.delete with
    | none => none
    | some (b2, _) => writeTail b2 p
  else writeTail b p

/-- `Undo` — pop and invert through `History.Undo`, re-apply via
`commit` (return values discarded), then highlight the affected span. -/
def undo (b : TBuf) : Option (TBuf × Option String) :=
  match b.history.undo with
  | .error _ => some (b, some "undo: no history")
  | .ok (c, h2) =>
    let b1 : TBuf := { b with history := h2 }
    match b1.commit c with
    | none => none
    | some (b2, _) =>
      some ((b2.setDot c.offset (c.offset + (c.content.length : Int))).1, none)

/-- `Redo` — pop through `History.Redo`, re-apply via `commit`, then
collapse the dot at the deletion point or after the insertion. -/
def redo (b : TBuf) : Option (TBuf × Option String) :=
  match b.history.redo with
  | .error _ => some (b, some "redo: no recall history")
  | .ok (c, h2) =>
    let b1 : TBuf := { b with history := h2 }
    match b1.commit c with
    | none => none
    | some (b2, _) =>
      let b3 :=
        if c.action = .hDelete then (b2.setDot c.offset c.offset).1
        else (b2.setDot (c.offset + (c.content.length : Int))
                (c.offset + (c.content.length : Int))).1
      some (b3, none)

/-- The `NextWord` scan loop: accumulate sizes while the rune is a
letter or digit, reading forward; `io.EOF` ends the word, any other
read error aborts with 0.  The fuel exceeds the number of iterations
(each successful `ReadRune` advances the cursor by at least one byte
within the buffer). -/
def nextWordLoop : Nat → TBuf → Nat → Nat → Nat → Nat
  | 0, _, _, _, n => n
  | fuel + 1, b, r, size, n =>
    if isAlnum r then
      match b.readRune with
      | (b2, .ok (r2, s2)) => nextWordLoop fuel b2 r2 s2 (n + size)
      | (_, .error e) => if e = .eof then n + size else 0
    else n

/-- `NextWord` — bytes of the alphanumeric run starting at `offset`. -/
def nextWord (b : TBuf) (offset : Int) : Nat :=
  let b1 := (b.seek offset 0).1
  match b1.readRune with
  | (_, .error _) => 0
  | (b2, .ok (r, size)) => nextWordLoop (b.len + 2) b2 r size 0

/-- The `PrevWord` scan loop: accumulate sizes while the rune is a
letter or digit, reading backward with `UnreadRune` (whose errors are
discarded, leaving `r = 0`, `size = 0`, which ends the loop).
Returns the count and the size of the last iteration. -/
def prevWordLoop : Nat → TBuf → Nat → Nat → Nat → Nat × Nat
  | 0, _, _, size, n => (n, size)
  | fuel + 1, b, r, size, n =>
    if isAlnum r then
      match b.unreadRune with
      | (b2, .ok (r2, s2)) => prevWordLoop fuel b2 r2 s2 (n + s2)
      | (_, .error _) => (n, 0)
    else (n, size)

/-- `PrevWord` — bytes of the alphanumeric run ending at `offset`
(the `if n > 0 { n -= size }` adjustment drops the last iteration). -/
def prevWord (b : TBuf) (offset : Int) : Nat :=
  let sr := b.seek offset 0
  let b1 := sr.1
  let offset2 : Int := match sr.2 with | .ok o => o | .error _ => 0
  let rs : Nat × Nat :=
    match b1.readRuneAt offset2 with
    | .ok p => p
    | .error _ => (0, 0)
  let nl := prevWordLoop (b.len + 2) b1 rs.1 rs.2 0
  if 0 < nl.1 then nl.1 - nl.2 else nl.1

end TBuf

/-! ## Concrete states used by the claims' scenarios and witnesses -/

/-- The bytes of `"hello"`. -/
def helloBytes : List Nat := [104, 101, 108, 108, 111]

/-- Fallback values for projecting `Option` results of operations
whose success the theorems assert separately (`isSome` conjuncts);
the fallbacks are never reached there. -/
def scDfltW : TBuf × Nat := (TBuf.empty, 0)

/-- Fallback for undo/redo results, as for `scDfltW`. -/
def scDfltU : TBuf × Option String := (TBuf.empty, none)

/-- Scenario step 1: `Write("hello")` on an empty buffer. -/
def sc1 : TBuf := ((TBuf.empty.write helloBytes).getD scDfltW).1

/-- Scenario step 2: `SetDot(0, 5)`. -/
def sc2 : TBuf := (sc1.setDot 0 5).1

/-- Scenario step 3: `Delete()`. -/
def sc3 : TBuf := ((sc2.delete).getD scDfltW).1

/-- Scenario step 4: first `Undo()`. -/
def sc4 : TBuf := ((sc3.undo).getD scDfltU).1

/-- Scenario step 5: second `Undo()`. -/
def sc5 : TBuf := ((sc4.undo).getD scDfltU).1

/-- Scenario step 6: first `Redo()`. -/
def sc6 : TBuf := ((sc5.redo).getD scDfltU).1

/-- Scenario step 7: second `Redo()`. -/
def sc7 : TBuf := ((sc6.redo).getD scDfltU).1

/-- A buffer holding `"abc def"`. -/
def wordsBuf : TBuf := ((TBuf.empty.write [97, 98, 99, 32, 100, 101, 102]).getD scDfltW).1

/-- A buffer holding `"héllo\nworld"` (é = `C3 A9`). -/
def accentBuf : TBuf :=
  ((TBuf.empty.write [104, 0xC3, 0xA9, 108, 108, 111, 10, 119, 111, 114, 108, 100]).getD scDfltW).1

/-- A buffer holding `"abc"` with the read cursor at byte 2. -/
def cursorBuf : TBuf := { ((TBuf.empty.write [97, 98, 99]).getD scDfltW).1 with off := 2 }

/-- A sample operation sequence for the refinement witness. -/
def demoOps : List GapOp := [.write helloBytes, .seek 2, .delete, .write [33]]

/-! ## List.getD helper lemmas

The gap-buffer proofs are pointwise: buffer contents are compared
through `List.getD _ 0`, matching the zero value a Go byte read
yields out of range. -/

theorem getD_drop (l : List Nat) (n i d : Nat) : (l.drop n).getD i d = l.getD (n + i) d := by
  rcases Nat.lt_or_ge (n + i) l.length with h | h
  · rw [List.getD_eq_getElem _ _ (by simp; omega), List.getD_eq_getElem _ _ h, List.getElem_drop]
  · rw [List.getD_eq_default _ _ (by simp; omega), List.getD_eq_default _ _ h]

theorem getD_take (l : List Nat) (n i d : Nat) (h : i < n) :
    (l.take n).getD i d = l.getD i d := by
  rcases Nat.lt_or_ge i l.length with h2 | h2
  · rw [List.getD_eq_getElem _ _ (by simp; omega), List.getD_eq_getElem _ _ h2, List.getElem_take]
  · rw [List.getD_eq_default _ _ (by simp; omega), List.getD_eq_default _ _ h2]

theorem getD_set_eq (l : List Nat) (i a d : Nat) (h : i < l.length) :
    (l.set i a).getD i d = a := by
  rw [List.getD_eq_getElem _ _ (by simpa using h)]
  simp [List.getElem_set]

theorem getD_set_ne (l : List Nat) (i j a d : Nat) (h : i ≠ j) :
    (l.set i a).getD j d = l.getD j d := by
  rcases Nat.lt_or_ge j l.length with h2 | h2
  · rw [List.getD_eq_getElem _ _ (by simpa using h2), List.getD_eq_getElem _ _ h2]
    rw [List.getElem_set]
    simp [h]
  · rw [List.getD_eq_default _ _ (by simpa using h2), List.getD_eq_default _ _ h2]

theorem getD_replicate_zero (n i : Nat) : (List.replicate n 0).getD i 0 = 0 := by
  rcases Nat.lt_or_ge i n with h | h
  · rw [List.getD_eq_getElem _ _ (by simpa using h)]
    exact List.getElem_replicate _ _
  · rw [List.getD_eq_default _ _ (by simpa using h)]

namespace GapBuffer

theorem wf_empty : WF empty := by constructor <;> simp [empty]

theorem abs_length (b : GapBuffer) (hwf : b.WF) : b.abs.length = b.len := by
  obtain ⟨h1, h2⟩ := hwf
  simp only [abs, List.length_append, List.length_take, List.length_drop, len, gapLen]
  omega

theorem len_le_data_length (b : GapBuffer) : b.len ≤ b.data.length := by
  simp only [len]; omega

/-- `ByteAt` on a wellformed buffer agrees with the abstraction at
every logical offset in `[0, Len())`. -/
theorem byteAt_abs (b : GapBuffer) (hwf : b.WF) (i : Nat) (hi : i < b.len) :
    b.byteAt (i : Int) = .ok (b.abs.getD i 0) := by
  obtain ⟨h1, h2⟩ := hwf
  have hlen : b.len = b.data.length - (b.gapEnd - b.start) := rfl
  by_cases hcase : (i : Int) ≥ (b.start : Int)
  · have hs : b.start ≤ i := by exact_mod_cast hcase
    have hidx : i + b.gapLen < b.data.length := by
      simp only [gapLen]; simp only [len, gapLen] at hi; omega
    simp only [byteAt, hcase, if_pos]
    have h0 : ¬ ((i : Int) + (b.gapLen : Int) < 0) := by omega
    rw [if_neg h0, if_neg (by omega)]
    have htn : ((i : Int) + (b.gapLen : Int)).toNat = i + b.gapLen := by omega
    rw [htn]
    congr 1
    have hlt : i < b.abs.length := by
      rw [abs_length b ⟨h1, h2⟩]; exact hi
    rw [List.getD_eq_getElem _ _ hidx, List.getD_eq_getElem _ _ hlt]
    simp only [abs]
    have htl : (b.data.take b.start).length = b.start := by
      simp; omega
    rw [List.getElem_append_right (by omega)]
    rw [List.getElem_drop]
    congr 1
    simp only [gapLen] at *
    omega
  · have hs : i < b.start := by omega
    simp only [byteAt, hcase, if_neg, if_false]
    rw [if_neg (by omega), if_neg (by omega)]
    have htn : ((i : Int)).toNat = i := by omega
    rw [htn]
    congr 1
    have hlt : i < b.abs.length := by
      rw [abs_length b ⟨h1, h2⟩]; exact hi
    have hidata : i < b.data.length := by omega
    rw [List.getD_eq_getElem _ _ hidata, List.getD_eq_getElem _ _ hlt]
    simp only [abs]
    have htl : (b.data.take b.start).length = b.start := by simp; omega
    rw [List.getElem_append_left (by omega)]
    rw [List.getElem_take]

/-- `ByteAt` fails outside `[0, Len())` (wellformed buffer,
non-negative offset ≥ `Len` gives EOF). -/
theorem byteAt_eof (b : GapBuffer) (hwf : b.WF) (i : Nat) (hi : b.len ≤ i) :
    b.byteAt (i : Int) = .error .eof := by
  obtain ⟨h1, h2⟩ := hwf
  simp only [len, gapLen] at hi
  by_cases hcase : (i : Int) ≥ (b.start : Int)
  · simp only [byteAt, hcase, if_pos]
    rw [if_neg (by simp only [gapLen]; omega), if_pos (by simp only [gapLen]; omega)]
  · exfalso
    have : i < b.start := by omega
    omega

theorem byteAt_neg (b : GapBuffer) (i : Int) (hi : i < 0) :
    b.byteAt i = .error .outOfRange := by
  have hns : ¬ (i ≥ (b.start : Int)) := by
    intro h
    have : (0 : Int) ≤ (b.start : Int) := by omega
    omega
  simp only [byteAt, hns, if_neg, if_false]
  rw [if_pos hi]

/-- `Bytes` of a wellformed buffer is exactly the abstraction. -/
theorem bytes_eq_abs (b : GapBuffer) (hwf : b.WF) : b.bytes = b.abs := by
  have hl : b.bytes.length = b.abs.length := by
    simp [bytes, abs_length b hwf]
  apply List.ext_getElem hl
  intro i hi hi'
  have hirange : i < b.len := by simpa [bytes] using hi
  simp only [bytes, List.getElem_map, List.getElem_range]
  rw [byteAt_abs b hwf i hirange]
  simp only [Except.toOption, Option.getD_some]
  exact List.getD_eq_getElem _ _ hi'

/-- Pointwise description of the abstraction: logical offset `i`
reads the storage at `i` left of the gap and at `i + gapLen` right
of it. -/
theorem abs_getD (b : GapBuffer) (hwf : b.WF) (i : Nat) (hi : i < b.len) :
    b.abs.getD i 0 = b.data.getD (if i < b.start then i else i + b.gapLen) 0 := by
  obtain ⟨h1, h2⟩ := hwf
  have htl : (b.data.take b.start).length = b.start := by
    simp only [List.length_take]; simp only [len, gapLen] at hi; omega
  by_cases hc : i < b.start
  · rw [if_pos hc]
    unfold abs
    rw [List.getD_append _ _ _ _ (by omega), getD_take _ _ _ _ hc]
  · rw [if_neg hc]
    unfold abs
    rw [List.getD_append_right _ _ _ _ (by omega), htl, getD_drop]
    congr 1
    simp only [gapLen]
    omega

/-- Extensionality for abstractions through `getD`. -/
theorem abs_ext {b c : GapBuffer} (hb : b.WF) (hc : c.WF) (hlen : b.len = c.len)
    (h : ∀ i, i < b.len → b.abs.getD i 0 = c.abs.getD i 0) : b.abs = c.abs := by
  apply List.ext_getElem (by rw [abs_length b hb, abs_length c hc, hlen])
  intro i hi hi'
  have hib : i < b.len := by rwa [abs_length b hb] at hi
  have := h i hib
  rwa [List.getD_eq_getElem _ _ hi, List.getD_eq_getElem _ _ hi'] at this

theorem forward_spec (b : GapBuffer) (hwf : b.WF) (h : b.gapEnd < b.data.length) :
    (b.forward).WF ∧ (b.forward).start = b.start + 1 ∧ (b.forward).gapEnd = b.gapEnd + 1 ∧
    (b.forward).data.length = b.data.length ∧ (b.forward).len = b.len ∧
    (b.forward).abs = b.abs := by
  obtain ⟨h1, h2⟩ := hwf
  have hne : ¬ (b.gapEnd ≥ b.data.length) := by omega
  simp only [forward, if_neg hne]
  set b' : GapBuffer :=
    { data := b.data.set b.start (b.data.getD b.gapEnd 0),
      start := b.start + 1, gapEnd := b.gapEnd + 1 } with hb'
  have hdl : b'.data.length = b.data.length := by simp [hb']
  have hwf' : b'.WF := by
    constructor
    · show b.start + 1 ≤ b.gapEnd + 1; omega
    · show b.gapEnd + 1 ≤ b'.data.length; omega
  have hlen : b'.len = b.len := by
    simp only [len, gapLen, hb', List.length_set]
    omega
  refine ⟨hwf', trivial, trivial, hdl, hlen, ?_⟩
  apply abs_ext hwf' ⟨h1, h2⟩ hlen
  intro i hi
  rw [abs_getD b' hwf' i hi, abs_getD b ⟨h1, h2⟩ i (hlen ▸ hi)]
  have hgap : b'.gapLen = b.gapLen := by
    simp only [gapLen, hb']
    omega
  rcases Nat.lt_trichotomy i b.start with hlt | heq | hgt
  · rw [if_pos (show i < b'.start by show i < b.start + 1; omega), if_pos hlt]
    show (b.data.set b.start _).getD i 0 = _
    rw [getD_set_ne _ _ _ _ _ (by omega)]
  · rw [if_pos (show i < b'.start by show i < b.start + 1; omega), if_neg (by omega)]
    show (b.data.set b.start _).getD i 0 = _
    rw [heq, getD_set_eq _ _ _ _ (by omega)]
    congr 1
    simp only [gapLen]
    omega
  · rw [if_neg (show ¬ i < b'.start by show ¬ i < b.start + 1; omega), if_neg (by omega)]
    show (b.data.set b.start _).getD (i + b'.gapLen) 0 = _
    rw [hgap, getD_set_ne _ _ _ _ _ (by simp only [gapLen]; omega)]

theorem backward_spec (b : GapBuffer) (hwf : b.WF) (h : 0 < b.start) :
    (b.backward).WF ∧ (b.backward).start = b.start - 1 ∧ (b.backward).gapEnd = b.gapEnd - 1 ∧
    (b.backward).data.length = b.data.length ∧ (b.backward).len = b.len ∧
    (b.backward).abs = b.abs := by
  obtain ⟨h1, h2⟩ := hwf
  have hne : ¬ (b.start ≤ 0) := by omega
  simp only [backward, if_neg hne]
  set b' : GapBuffer :=
    { data := b.data.set (b.gapEnd - 1) (b.data.getD (b.start - 1) 0),
      start := b.start - 1, gapEnd := b.gapEnd - 1 } with hb'
  have hdl : b'.data.length = b.data.length := by simp [hb']
  have hwf' : b'.WF := by
    constructor
    · show b.start - 1 ≤ b.gapEnd - 1; omega
    · show b.gapEnd - 1 ≤ b'.data.length; rw [hdl]; omega
  have hlen : b'.len = b.len := by
    simp only [len, gapLen, hb', List.length_set]
    omega
  refine ⟨hwf', trivial, trivial, hdl, hlen, ?_⟩
  apply abs_ext hwf' ⟨h1, h2⟩ hlen
  intro i hi
  rw [abs_getD b' hwf' i hi, abs_getD b ⟨h1, h2⟩ i (hlen ▸ hi)]
  have hgap : b'.gapLen = b.gapLen := by
    simp only [gapLen, hb']
    omega
  rcases Nat.lt_trichotomy i (b.start - 1) with hlt | heq | hgt
  · rw [if_pos (show i < b'.start from hlt), if_pos (by omega)]
    show (b.data.set (b.gapEnd - 1) _).getD i 0 = _
    rw [getD_set_ne _ _ _ _ _ (by omega)]
  · subst heq
    rw [if_neg (show ¬ b.start - 1 < b'.start by show ¬ b.start - 1 < b.start - 1; omega),
        if_pos (by omega)]
    show (b.data.set (b.gapEnd - 1) _).getD (b.start - 1 + b'.gapLen) 0 = _
    have hidx : b.start - 1 + b'.gapLen = b.gapEnd - 1 := by
      rw [hgap]; simp only [gapLen]; omega
    rw [hidx, getD_set_eq _ _ _ _ (by omega)]
  · rw [if_neg (show ¬ i < b'.start by show ¬ i < b.start - 1; omega), if_neg (by omega)]
    show (b.data.set (b.gapEnd - 1) _).getD (i + b'.gapLen) 0 = _
    rw [hgap, getD_set_ne _ _ _ _ _ (by simp only [gapLen]; omega)]

theorem fwdIter_spec (k : Nat) : ∀ (b : GapBuffer), b.WF → b.start + k ≤ b.len →
    (fwdIter k b).WF ∧ (fwdIter k b).start = b.start + k ∧
    (fwdIter k b).gapEnd = b.gapEnd + k ∧
    (fwdIter k b).data.length = b.data.length ∧ (fwdIter k b).len = b.len ∧
    (fwdIter k b).abs = b.abs := by
  induction k with
  | zero => intro b hwf _; exact ⟨hwf, rfl, rfl, rfl, rfl, rfl⟩
  | succ n ih =>
    intro b hwf hk
    have hend : b.gapEnd < b.data.length := by
      obtain ⟨h1, h2⟩ := hwf
      simp only [len, gapLen] at hk
      omega
    obtain ⟨w1, w2, w3, w4, w5, w6⟩ := forward_spec b hwf hend
    have hk' : (b.forward).start + n ≤ (b.forward).len := by
      rw [w2, w5]; omega
    obtain ⟨v1, v2, v3, v4, v5, v6⟩ := ih (b.forward) w1 hk'
    have hstep : fwdIter (n + 1) b = fwdIter n b.forward := rfl
    rw [hstep]
    refine ⟨v1, ?_, ?_, ?_, ?_, ?_⟩
    · rw [v2, w2]; omega
    · rw [v3, w3]; omega
    · rw [v4, w4]
    · rw [v5, w5]
    · rw [v6, w6]

theorem bwdIter_spec (k : Nat) : ∀ (b : GapBuffer), b.WF → k ≤ b.start →
    (bwdIter k b).WF ∧ (bwdIter k b).start = b.start - k ∧
    (bwdIter k b).gapEnd = b.gapEnd - k ∧
    (bwdIter k b).data.length = b.data.length ∧ (bwdIter k b).len = b.len ∧
    (bwdIter k b).abs = b.abs := by
  induction k with
  | zero => intro b hwf _; exact ⟨hwf, rfl, rfl, rfl, rfl, rfl⟩
  | succ n ih =>
    intro b hwf hk
    have hpos : 0 < b.start := by omega
    obtain ⟨w1, w2, w3, w4, w5, w6⟩ := backward_spec b hwf hpos
    have hk' : n ≤ (b.backward).start := by rw [w2]; omega
    obtain ⟨v1, v2, v3, v4, v5, v6⟩ := ih (b.backward) w1 hk'
    have hstep : bwdIter (n + 1) b = bwdIter n b.backward := rfl
    rw [hstep]
    obtain ⟨h1, h2⟩ := hwf
    refine ⟨v1, ?_, ?_, ?_, ?_, ?_⟩
    · rw [v2, w2]; omega
    · rw [v3, w3]; omega
    · rw [v4, w4]
    · rw [v5, w5]
    · rw [v6, w6]

/-- `Seek` (with a non-negative target) places the gap start at the
clamped position and disturbs nothing observable. -/
theorem seekNat_spec (b : GapBuffer) (np : Nat) (hwf : b.WF) :
    (b.seekNat np).WF ∧ (b.seekNat np).start = min np b.len ∧
    (b.seekNat np).gapLen = b.gapLen ∧
    (b.seekNat np).data.length = b.data.length ∧ (b.seekNat np).len = b.len ∧
    (b.seekNat np).abs = b.abs := by
  have hstartle : b.start ≤ b.len := by
    obtain ⟨h1, h2⟩ := hwf
    simp only [len, gapLen]
    omega
  unfold seekNat
  set np' := if np > b.len then b.len else np with hnp'
  have hnple : np' ≤ b.len := by
    rw [hnp']; split <;> omega
  have hmin : np' = min np b.len := by
    rw [hnp']; rcases Nat.lt_or_ge b.len np with h | h
    · rw [if_pos h]; omega
    · rw [if_neg (by omega)]; omega
  rcases Nat.lt_trichotomy np' b.start with hlt | heq | hgt
  · rw [if_pos hlt]
    obtain ⟨v1, v2, v3, v4, v5, v6⟩ := bwdIter_spec (b.start - np') b hwf (by omega)
    refine ⟨v1, by rw [v2]; omega, ?_, v4, v5, v6⟩
    obtain ⟨h1, h2⟩ := hwf
    simp only [gapLen]
    rw [v2, v3]
    omega
  · rw [if_neg (by omega), if_neg (by omega)]
    refine ⟨hwf, by omega, rfl, rfl, rfl, rfl⟩
  · rw [if_neg (by omega), if_pos hgt]
    obtain ⟨v1, v2, v3, v4, v5, v6⟩ := fwdIter_spec (np' - b.start) b hwf (by omega)
    refine ⟨v1, by rw [v2]; omega, ?_, v4, v5, v6⟩
    obtain ⟨h1, h2⟩ := hwf
    simp only [gapLen]
    rw [v2, v3]
    omega

theorem take_insert_succ (l : List Nat) (n : Nat) (c : Nat) (h : n ≤ l.length) :
    (l.take n ++ c :: l.drop n).take (n + 1) = l.take n ++ [c] := by
  have htl : (l.take n).length = n := by rw [List.length_take]; omega
  have e1 : (l.take n).take (n + 1) = l.take n := List.take_of_length_le (by omega)
  have e2 : n + 1 - n = 1 := by omega
  rw [List.take_append_eq_append_take, htl, e1, e2]
  simp

theorem drop_insert_succ (l : List Nat) (n : Nat) (c : Nat) (h : n ≤ l.length) :
    (l.take n ++ c :: l.drop n).drop (n + 1) = l.drop n := by
  have htl : (l.take n).length = n := by rw [List.length_take]; omega
  have e1 : (l.take n).drop (n + 1) = [] := List.drop_eq_nil_of_le (by omega)
  have e2 : n + 1 - n = 1 := by omega
  rw [List.drop_append_eq_append_drop, htl, e1, e2, List.nil_append]
  simp

theorem grow_spec (b : GapBuffer) (hwf : b.WF) (hgap : b.gapLen = 0) :
    (b.grow).WF ∧ (b.grow).start = b.start ∧ (b.grow).len = b.len ∧
    0 < (b.grow).gapLen ∧ (b.grow).abs = b.abs := by
  obtain ⟨h1, h2⟩ := hwf
  simp only [gapLen] at hgap
  by_cases hnil : b.data.length = 0
  · obtain ⟨d, st, en⟩ := b
    simp only at h1 h2 hnil hgap
    have hd : d = [] := List.length_eq_zero.mp hnil
    have hen : en = 0 := by omega
    have hst : st = 0 := by omega
    subst hd hen hst
    have hgrow : GapBuffer.grow ⟨[], 0, 0⟩ = ⟨List.replicate 128 0, 0, 128⟩ := by
      simp [grow]
    rw [hgrow]
    refine ⟨⟨by show (0 : Nat) ≤ 128; omega,
      by show (128 : Nat) ≤ (List.replicate 128 (0 : Nat)).length; simp⟩,
      rfl, by simp [len, gapLen], by simp [gapLen],
      by simp [abs, List.drop_eq_nil_of_le]⟩
  · simp only [grow, if_neg hnil]
    have hlendata : b.len = b.data.length := by
      simp only [len, gapLen]; omega
    obtain ⟨s1, s2, s3, s4, s5, s6⟩ := seekNat_spec b b.data.length ⟨h1, h2⟩
    set b1 := b.seekNat b.data.length with hb1
    have hs1start : b1.start = b.data.length := by
      rw [s2, hlendata]
      omega
    have hs1end : b1.gapEnd = b.data.length := by
      have hg := s3
      simp only [gapLen] at hg
      obtain ⟨u1, u2⟩ := s1
      rw [s4] at u2
      omega
    set exp := (b1.data ++ [0]).length with hexp
    have hexpval : exp = b.data.length + 1 := by
      rw [hexp, List.length_append, s4]
      rfl
    set b2 : GapBuffer :=
      { data := (b1.data ++ [0]) ++ List.replicate exp 0,
        start := b1.start, gapEnd := b1.gapEnd + exp + 1 } with hb2
    have hb2len : b2.data.length = b.data.length + 1 + exp := by
      show ((b1.data ++ [0]) ++ List.replicate exp 0).length = _
      rw [List.length_append, List.length_append, List.length_replicate, s4]
      simp
    have hwf2 : b2.WF := by
      constructor
      · show b1.start ≤ b1.gapEnd + exp + 1
        rw [hs1start, hs1end]; omega
      · show b1.gapEnd + exp + 1 ≤ b2.data.length
        rw [hs1end, hb2len]; omega
    have hgap2 : b2.gapLen = exp + 1 := by
      show b1.gapEnd + exp + 1 - b1.start = exp + 1
      rw [hs1start, hs1end]; omega
    have hlen2 : b2.len = b.len := by
      show b2.data.length - b2.gapLen = b.len
      rw [hb2len, hgap2, hlendata]; omega
    have habs2 : b2.abs = b.abs := by
      rw [← s6]
      apply abs_ext hwf2 s1 (by rw [hlen2, s5])
      intro i hi
      have hib : i < b.data.length := by
        rw [hlen2, hlendata] at hi; exact hi
      have hi1 : i < b1.len := by rw [s5, hlendata]; exact hib
      rw [abs_getD b2 hwf2 i hi, abs_getD b1 s1 i hi1]
      rw [if_pos (show i < b2.start by show i < b1.start; rw [hs1start]; omega),
          if_pos (by rw [hs1start]; omega)]
      show ((b1.data ++ [0]) ++ List.replicate exp 0).getD i 0 = _
      rw [List.getD_append _ _ _ _ (by rw [List.length_append, s4]; simp; omega),
          List.getD_append _ _ _ _ (by rw [s4]; omega)]
    obtain ⟨f1, f2, f3, f4, f5, f6⟩ := seekNat_spec b2 b.start hwf2
    refine ⟨f1, ?_, by rw [f5, hlen2], ?_, by rw [f6, habs2]⟩
    · rw [f2, hlen2]
      have hble : b.start ≤ b.len := by simp only [len, gapLen]; omega
      omega
    · rw [f3, hgap2]
      omega

theorem write1_spec (b : GapBuffer) (c : Nat) (hwf : b.WF) :
    (b.write1 c).WF ∧ (b.write1 c).start = b.start + 1 ∧
    (b.write1 c).len = b.len + 1 ∧
    (b.write1 c).abs = b.abs.take b.start ++ c :: b.abs.drop b.start := by
  unfold write1
  set g := if b.gapLen = 0 then b.grow else b with hg
  have hgprops : g.WF ∧ g.start = b.start ∧ g.len = b.len ∧ 0 < g.gapLen ∧ g.abs = b.abs := by
    rw [hg]
    by_cases h0 : b.gapLen = 0
    · rw [if_pos h0]; exact grow_spec b hwf h0
    · rw [if_neg h0]; exact ⟨hwf, rfl, rfl, by omega, rfl⟩
  obtain ⟨g1, g2, g3, g4, g5⟩ := hgprops
  have k1 : g.start ≤ g.gapEnd := g1.1
  have k2 : g.gapEnd ≤ g.data.length := g1.2
  have hstartlt : g.start < g.gapEnd := by
    simp only [gapLen] at g4; omega
  have hstartdata : g.start < g.data.length := by omega
  set r : GapBuffer := { g with data := g.data.set g.start c, start := g.start + 1 } with hr
  have hrwf : r.WF := by
    constructor
    · show g.start + 1 ≤ g.gapEnd; omega
    · show g.gapEnd ≤ (g.data.set g.start c).length
      rw [List.length_set]; omega
  have hrgap : r.gapLen = g.gapLen - 1 := by
    show g.gapEnd - (g.start + 1) = g.gapEnd - g.start - 1
    omega
  have hrlen : r.len = g.len + 1 := by
    show (g.data.set g.start c).length - (g.gapEnd - (g.start + 1)) = _
    rw [List.length_set]
    simp only [len, gapLen]
    omega
  have hstartle : g.start ≤ g.abs.length := by
    rw [abs_length g g1]
    simp only [len, gapLen]
    omega
  refine ⟨hrwf, by rw [show r.start = g.start + 1 from rfl, g2],
    by rw [hrlen, g3], ?_⟩
  rw [← g5, ← g2]
  have htakelen : (g.abs.take g.start).length = g.start := by
    rw [List.length_take]; omega
  apply List.ext_getElem
  · rw [abs_length r hrwf, hrlen]
    simp only [List.length_append, List.length_cons, List.length_drop, htakelen,
      abs_length g g1]
    rw [abs_length g g1] at hstartle
    omega
  intro i hi hi'
  rw [← List.getD_eq_getElem _ 0 hi, ← List.getD_eq_getElem _ 0 hi']
  have hir : i < r.len := by rwa [abs_length r hrwf] at hi
  rw [abs_getD r hrwf i hir]
  have hrstart : r.start = g.start + 1 := rfl
  have hglen : i < g.len + 1 := by rwa [hrlen] at hir
  rcases Nat.lt_trichotomy i g.start with hlt | heq | hgt
  · rw [if_pos (show i < r.start by rw [hrstart]; omega)]
    show (g.data.set g.start c).getD i 0 = _
    rw [getD_set_ne _ _ _ _ _ (by omega)]
    rw [List.getD_append _ _ _ _ (by rw [htakelen]; omega), getD_take _ _ _ _ hlt]
    have higl : i < g.len := by
      simp only [len, gapLen]
      omega
    rw [abs_getD g g1 i higl, if_pos hlt]
  · rw [if_pos (show i < r.start by rw [hrstart]; omega), heq]
    show (g.data.set g.start c).getD g.start 0 = _
    rw [getD_set_eq _ _ _ _ hstartdata]
    rw [List.getD_append_right _ _ _ _ (by rw [htakelen]), htakelen]
    simp
  · rw [if_neg (show ¬ i < r.start by rw [hrstart]; omega)]
    show (g.data.set g.start c).getD (i + r.gapLen) 0 = _
    rw [getD_set_ne _ _ _ _ _ (by rw [hrgap]; simp only [gapLen]; omega)]
    rw [List.getD_append_right _ _ _ _ (by rw [htakelen]; omega), htakelen]
    have hisub : i - g.start = (i - g.start - 1) + 1 := by omega
    rw [hisub, List.getD_cons_succ, getD_drop]
    have hig : g.start + (i - g.start - 1) = i - 1 := by omega
    rw [hig]
    have hi1 : i - 1 < g.len := by omega
    rw [abs_getD g g1 (i - 1) hi1, if_neg (by omega), hrgap]
    have hidx2 : i + (g.gapLen - 1) = (i - 1) + g.gapLen := by omega
    rw [hidx2]

theorem write_spec (p : List Nat) : ∀ (b : GapBuffer), b.WF →
    (b.write p).WF ∧ (b.write p).start = b.start + p.length ∧
    (b.write p).len = b.len + p.length ∧
    (b.write p).abs = b.abs.take b.start ++ p ++ b.abs.drop b.start := by
  induction p with
  | nil =>
    intro b hwf
    refine ⟨hwf, by simp [write], by simp [write], ?_⟩
    show b.abs = _
    simp only [List.append_nil]
    exact (List.take_append_drop b.start b.abs).symm
  | cons c rest ih =>
    intro b hwf
    obtain ⟨w1, w2, w3, w4⟩ := write1_spec b c hwf
    obtain ⟨v1, v2, v3, v4⟩ := ih (b.write1 c) w1
    have hstartle : b.start ≤ b.abs.length := by
      rw [abs_length b hwf]
      simp only [len, gapLen]
      obtain ⟨h1, h2⟩ := hwf
      omega
    have hstep : b.write (c :: rest) = (b.write1 c).write rest := rfl
    rw [hstep]
    refine ⟨v1, ?_, ?_, ?_⟩
    · rw [v2, w2, List.length_cons]; omega
    · rw [v3, w3, List.length_cons]; omega
    · rw [v4, w4, w2, take_insert_succ _ _ _ hstartle, drop_insert_succ _ _ _ hstartle]
      simp

theorem delete_spec (b : GapBuffer) (hwf : b.WF) (h : 0 < b.start) :
    (b.delete).1.WF ∧ (b.delete).1.start = b.start - 1 ∧
    (b.delete).1.len = b.len - 1 ∧
    (b.delete).1.abs = b.abs.take (b.start - 1) ++ b.abs.drop b.start := by
  obtain ⟨h1, h2⟩ := hwf
  have hcond : ¬ ((b.start : Int) - 1 < 0) := by omega
  simp only [delete, if_neg hcond]
  set r : GapBuffer := { b with start := b.start - 1 } with hr
  have hrwf : r.WF := ⟨by show b.start - 1 ≤ b.gapEnd; omega, h2⟩
  have hrlen : r.len = b.len - 1 := by
    simp only [len, gapLen, hr]
    omega
  refine ⟨hrwf, trivial, hrlen, ?_⟩
  have hstartle : b.start ≤ b.abs.length := by
    rw [abs_length b ⟨h1, h2⟩]
    simp only [len, gapLen]
    omega
  have htakelen : (b.abs.take (b.start - 1)).length = b.start - 1 := by
    rw [List.length_take]; omega
  apply List.ext_getElem
  · rw [abs_length r hrwf, hrlen]
    simp only [List.length_append, List.length_drop, htakelen]
    rw [abs_length b ⟨h1, h2⟩]
    simp only [len, gapLen]
    omega
  intro i hi hi'
  rw [← List.getD_eq_getElem _ 0 hi, ← List.getD_eq_getElem _ 0 hi']
  have hir : i < r.len := by rwa [abs_length r hrwf] at hi
  rw [abs_getD r hrwf i hir]
  have hrgap : r.gapLen = b.gapLen + 1 := by
    simp only [gapLen, hr]
    omega
  have hblen : i < b.len - 1 := by rwa [hrlen] at hir
  rcases Nat.lt_or_ge i (b.start - 1) with hlt | hge
  · rw [if_pos (show i < r.start from hlt)]
    show b.data.getD i 0 = _
    rw [List.getD_append _ _ _ _ (by rw [htakelen]; omega), getD_take _ _ _ _ hlt]
    rw [abs_getD b ⟨h1, h2⟩ i (by omega), if_pos (by omega)]
  · rw [if_neg (show ¬ i < r.start by show ¬ i < b.start - 1; omega)]
    show b.data.getD (i + r.gapLen) 0 = _
    rw [List.getD_append_right _ _ _ _ (by rw [htakelen]; omega), htakelen, getD_drop]
    have hidx : b.start + (i - (b.start - 1)) = i + 1 := by omega
    rw [hidx]
    have hi1lt : i + 1 < b.len := by omega
    rw [abs_getD b ⟨h1, h2⟩ (i + 1) hi1lt, if_neg (by omega), hrgap]
    have hidx2 : i + (b.gapLen + 1) = (i + 1) + b.gapLen := by omega
    rw [hidx2]

theorem deleteIter_spec (k : Nat) : ∀ (b : GapBuffer), b.WF → k ≤ b.start →
    (deleteIter k b).WF ∧ (deleteIter k b).start = b.start - k ∧
    (deleteIter k b).len = b.len - k ∧
    (deleteIter k b).abs = b.abs.take (b.start - k) ++ b.abs.drop b.start := by
  induction k with
  | zero =>
    intro b hwf _
    refine ⟨hwf, rfl, rfl, ?_⟩
    show b.abs = _
    exact (List.take_append_drop b.start b.abs).symm
  | succ n ih =>
    intro b hwf hk
    obtain ⟨w1, w2, w3, w4⟩ := delete_spec b hwf (by omega)
    obtain ⟨v1, v2, v3, v4⟩ := ih b.delete.1 w1 (by rw [w2]; omega)
    have hstartle : b.start ≤ b.abs.length := by
      rw [abs_length b hwf]
      obtain ⟨h1, h2⟩ := hwf
      simp only [len, gapLen]
      omega
    have hstep : deleteIter (n + 1) b = deleteIter n b.delete.1 := rfl
    rw [hstep]
    refine ⟨v1, ?_, ?_, ?_⟩
    · rw [v2, w2]; omega
    · rw [v3, w3]; omega
    · rw [v4, w4, w2]
      have htakelen : (b.abs.take (b.start - 1)).length = b.start - 1 := by
        rw [List.length_take]; omega
      rw [List.take_append_eq_append_take, htakelen, List.take_take,
          min_eq_left (by omega)]
      have hz : b.start - 1 - n - (b.start - 1) = 0 := by omega
      rw [hz, List.take_zero, List.append_nil]
      rw [List.drop_append_eq_append_drop, htakelen]
      have hd1 : (b.abs.take (b.start - 1)).drop (b.start - 1) = [] :=
        List.drop_eq_nil_of_le (by rw [htakelen])
      rw [hd1, List.nil_append]
      have hstep2 : b.start - 1 - (b.start - 1) = 0 := by omega
      rw [hstep2, List.drop_zero]
      have hidx : b.start - 1 - n = b.start - (n + 1) := by omega
      rw [hidx]

end GapBuffer

open GapBuffer in
/-- One step of the simulation between the gap buffer and the flat
reference model. -/
theorem gapStep_sim (b : GapBuffer) (s : FlatModel) (op : GapOp)
    (hwf : b.WF) (habs : b.abs = s.content) (hpos : b.start = s.pos) :
    (gapStep b op).WF ∧ (gapStep b op).abs = (flatStep s op).content ∧
    (gapStep b op).start = (flatStep s op).pos := by
  have hstartle : b.start ≤ b.len := by
    obtain ⟨h1, h2⟩ := hwf
    simp only [len, gapLen]
    omega
  have hlenabs : b.abs.length = b.len := abs_length b hwf
  have hclen : s.content.length = b.len := by rw [← habs, hlenabs]
  cases op with
  | seek p =>
    obtain ⟨v1, v2, v3, v4, v5, v6⟩ := seekNat_spec b p hwf
    refine ⟨v1, ?_, ?_⟩
    · show (b.seekNat p).abs = s.content
      rw [v6, habs]
    · show (b.seekNat p).start = min p s.content.length
      rw [v2, hclen]
  | write p =>
    obtain ⟨v1, v2, v3, v4⟩ := write_spec p b hwf
    refine ⟨v1, ?_, ?_⟩
    · show (b.write p).abs = s.content.take s.pos ++ p ++ s.content.drop s.pos
      rw [v4, habs, hpos]
    · show (b.write p).start = s.pos + p.length
      rw [v2, hpos]
  | delete =>
    by_cases h0 : b.start = 0
    · have hdel : b.delete = (b, 0) := by
        simp only [delete, h0]
        rw [if_pos (by omega)]
      have hsp : s.pos = 0 := by rw [← hpos, h0]
      have hflat : flatStep s .delete = s := by
        simp only [flatStep]
        rw [if_pos hsp]
      show (b.delete.1).WF ∧ (b.delete.1).abs = (flatStep s .delete).content ∧
        (b.delete.1).start = (flatStep s .delete).pos
      rw [hdel, hflat]
      exact ⟨hwf, habs, hpos⟩
    · obtain ⟨v1, v2, v3, v4⟩ := delete_spec b hwf (by omega)
      have hsp : ¬ s.pos = 0 := by rw [← hpos]; exact h0
      refine ⟨v1, ?_, ?_⟩
      · show (b.delete.1).abs = (flatStep s .delete).content
        simp only [flatStep, if_neg hsp]
        rw [v4, habs, hpos]
      · show (b.delete.1).start = (flatStep s .delete).pos
        simp only [flatStep, if_neg hsp]
        rw [v2, hpos]

/-- The simulation holds along any run. -/
theorem runGap_sim (ops : List GapOp) : ∀ (b : GapBuffer) (s : FlatModel),
    b.WF → b.abs = s.content → b.start = s.pos →
    (ops.foldl gapStep b).WF ∧ (ops.foldl gapStep b).abs = (ops.foldl flatStep s).content ∧
    (ops.foldl gapStep b).start = (ops.foldl flatStep s).pos := by
  induction ops with
  | nil => intro b s hwf habs hpos; exact ⟨hwf, habs, hpos⟩
  | cons op rest ih =>
    intro b s hwf habs hpos
    obtain ⟨w1, w2, w3⟩ := gapStep_sim b s op hwf habs hpos
    exact ih (gapStep b op) (flatStep s op) w1 w2 w3

theorem runGap_wf (ops : List GapOp) :
    (runGap ops).WF ∧ (runGap ops).abs = (runFlat ops).content ∧
    (runGap ops).start = (runFlat ops).pos := by
  exact runGap_sim ops GapBuffer.empty ⟨[], 0⟩ GapBuffer.wf_empty (by rfl) rfl


/-! ## Text-buffer lemmas -/

theorem bytes_length (g : GapBuffer) : g.bytes.length = g.len := by
  simp [GapBuffer.bytes]

/-- `ReadAt` with the window fully inside the content: the requested
slice of the logical bytes. -/
theorem readAt_window (g : GapBuffer) (hwf : g.WF) (count offset : Nat)
    (hoff : offset < g.len) (hcnt : offset + count ≤ g.len) :
    g.readAt count ((offset : Nat) : Int) = .ok ((g.bytes.drop offset).take count) := by
  simp only [GapBuffer.readAt]
  rw [if_neg (by omega), if_neg (by omega)]
  have havail : min count (g.len - ((offset : Nat) : Int).toNat) = count := by omega
  rw [havail]
  have hrep : count - count = 0 := by omega
  rw [hrep]
  simp only [List.replicate_zero, List.append_nil]
  congr 1
  apply List.ext_getElem
  · simp only [List.length_map, List.length_range, List.length_take, List.length_drop,
      bytes_length]
    omega
  intro i hi hi'
  have hilt : i < count := by simpa using hi
  have hin : offset + i < g.len := by omega
  simp only [List.getElem_map, List.getElem_range]
  rw [List.getElem_take, List.getElem_drop]
  have hcast : ((offset : Nat) : Int) + (i : Int) = (((offset + i : Nat) : Nat) : Int) := by
    push_cast; ring
  rw [hcast, GapBuffer.byteAt_abs g hwf (offset + i) hin]
  simp only [Except.toOption, Option.getD_some]
  simp only [GapBuffer.bytes_eq_abs g hwf]
  exact List.getD_eq_getElem _ _ (by rw [GapBuffer.abs_length g hwf]; omega)

/-- `readAt_window` with the offset as the `Int` the source passes. -/
theorem readAt_window_int (g : GapBuffer) (hwf : g.WF) (count : Nat) (offset : Int)
    (h0 : 0 ≤ offset) (hoff : offset < (g.len : Int)) (hcnt : offset.toNat + count ≤ g.len) :
    g.readAt count offset = .ok ((g.bytes.drop offset.toNat).take count) := by
  have hq : offset = ((offset.toNat : Nat) : Int) := by omega
  rw [hq]
  simp only [Int.toNat_natCast]
  exact readAt_window g hwf count offset.toNat (by omega) (by omega)

namespace TBuf

theorem byteAt_ok_nonneg (g : GapBuffer) (q : Int) (c : Nat)
    (h : g.byteAt q = .ok c) : 0 ≤ q := by
  by_contra hneg
  rw [GapBuffer.byteAt_neg g q (by omega)] at h
  cases h

theorem byteAtD_neg (g : GapBuffer) (q : Int) (h : q < 0) : byteAtD g q = 0 := by
  unfold byteAtD
  rw [GapBuffer.byteAt_neg g q h]
  rfl

theorem byteAtD_eof (g : GapBuffer) (hwf : g.WF) (q : Int)
    (h : (g.len : Int) ≤ q) : byteAtD g q = 0 := by
  have h0 : 0 ≤ q := by omega
  have hq : q = ((q.toNat : Nat) : Int) := by omega
  unfold byteAtD
  rw [hq, GapBuffer.byteAt_eof g hwf q.toNat (by omega)]
  rfl

theorem byteAtD_inrange (g : GapBuffer) (hwf : g.WF) (q : Int)
    (h0 : 0 ≤ q) (hlt : q < (g.len : Int)) :
    byteAtD g q = (g.bytes).getD q.toNat 0 := by
  have hq : q = ((q.toNat : Nat) : Int) := by omega
  unfold byteAtD
  rw [hq, GapBuffer.byteAt_abs g hwf q.toNat (by omega), GapBuffer.bytes_eq_abs g hwf]
  rfl

theorem runeStartB_zero : runeStartB 0 = true := rfl

theorem runeStartB_ascii (c : Nat) (h : c < 0x80) : runeStartB c = true := by
  have hle : c.land 0xC0 ≤ c := Nat.and_le_left
  unfold runeStartB
  simp only [bne_iff_ne, ne_eq, decide_eq_true_eq]
  omega

/-- The backup loop, characterized: from a non-negative start it
lands on the nearest rune-start position at or below the start,
provided position 0 reads as a rune start (true whenever the content
is valid UTF-8, and vacuously for the empty buffer). -/
theorem backScanF_spec (g : GapBuffer) (h0 : runeStartB (byteAtD g 0) = true) :
    ∀ (fuel : Nat) (q : Int), 0 ≤ q → q + 1 ≤ (fuel : Int) →
    0 ≤ backScanF g fuel q ∧ backScanF g fuel q ≤ q ∧
    runeStartB (byteAtD g (backScanF g fuel q)) = true ∧
    ∀ j, backScanF g fuel q < j → j ≤ q → runeStartB (byteAtD g j) = false := by
  intro fuel
  induction fuel with
  | zero => intro q hq hfuel; omega
  | succ n ih =>
    intro q hq hfuel
    by_cases hguard : runeStartB (byteAtD g q) = true
    · have hres : backScanF g (n + 1) q = q := by
        show (if runeStartB (byteAtD g q) then q else backScanF g n (q - 1)) = q
        rw [if_pos hguard]
      rw [hres]
      exact ⟨hq, le_refl q, hguard, fun j hj1 hj2 => by omega⟩
    · have hq1 : 1 ≤ q := by
        rcases Int.lt_or_le 0 q with h | h
        · omega
        · exfalso
          have : q = 0 := by omega
          rw [this] at hguard
          exact hguard h0
      have hres : backScanF g (n + 1) q = backScanF g n (q - 1) := by
        show (if runeStartB (byteAtD g q) then q else backScanF g n (q - 1)) = _
        rw [if_neg hguard]
      obtain ⟨v1, v2, v3, v4⟩ := ih (q - 1) (by omega) (by omega)
      rw [hres]
      refine ⟨v1, by omega, v3, ?_⟩
      intro j hj1 hj2
      rcases Int.lt_or_le (q - 1) j with hup | hdn
      · have : j = q := by omega
        rw [this]
        simp only [Bool.not_eq_true] at hguard
        exact hguard
      · exact v4 j hj1 hdn

/-- `backScan` characterization with the exact fuel. -/
theorem backScan_spec (g : GapBuffer) (q : Int)
    (h0 : runeStartB (byteAtD g 0) = true) (hq : 0 ≤ q) :
    0 ≤ backScan g q ∧ backScan g q ≤ q ∧
    runeStartB (byteAtD g (backScan g q)) = true ∧
    ∀ j, backScan g q < j → j ≤ q → runeStartB (byteAtD g j) = false := by
  unfold backScan
  exact backScanF_spec g h0 (q + 2).toNat q hq (by omega)

/-- The backup loop is the identity on rune-start positions. -/
theorem backScan_stop (g : GapBuffer) (q : Int)
    (h : runeStartB (byteAtD g q) = true) : backScan g q = q := by
  unfold backScan
  have h2 : (q + 2).toNat = (q + 1).toNat + 1 ∨ (q + 2).toNat = 0 := by omega
  rcases h2 with h2 | h2
  · rw [h2]
    show (if runeStartB (byteAtD g q) then q else _) = q
    rw [if_pos h]
  · rw [h2]
    rfl

theorem runeScanE_stop (g : GapBuffer) (q : Int) (c : Nat) (hq : 0 ≤ q)
    (h : runeStartB c = true) : runeScanE g q c = .ok (q, c) := by
  unfold runeScanE
  have h2 : (q + 2).toNat = (q + 1).toNat + 1 := by omega
  rw [h2]
  show (if runeStartB c then Except.ok (q, c) else _) = _
  rw [if_pos h]

theorem runeScanE_step (g : GapBuffer) (q : Int) (c : Nat) (hq : 0 ≤ q)
    (hns : runeStartB c = false) :
    runeScanE g q c =
      match g.byteAt (q - 1) with
      | .error e => .error e
      | .ok c2 => runeScanE g (q - 1) c2 := by
  unfold runeScanE
  have h2 : (q + 2).toNat = (q + 1).toNat + 1 := by omega
  have h3 : (q - 1 + 2).toNat = (q + 1).toNat := by omega
  rw [h2, h3]
  show (if runeStartB c then Except.ok (q, c) else _) = _
  rw [if_neg (by rw [hns]; exact Bool.false_ne_true)]

/-- The ASCII fast path of `ReadRuneAt`: a readable byte below 0x80
decodes as itself with size 1. -/
theorem readRuneAt_ascii (b : TBuf) (off : Int) (c : Nat)
    (hok : b.buf.byteAt off = .ok c) (hc : c < 0x80) :
    b.readRuneAt off = .ok (c, 1) := by
  have hq : 0 ≤ off := byteAt_ok_nonneg b.buf off c hok
  unfold readRuneAt
  rw [hok]
  show (runeScanE b.buf off c >>= _) = _
  rw [runeScanE_stop b.buf off c hq (runeStartB_ascii c hc)]
  show (if c < 0x80 then (pure (c, 1) : Except GapErr (Nat × Nat)) else _) = _
  rw [if_pos hc]
  rfl

/-- The backup step of `ReadRuneAt`: a readable continuation byte at
`off` makes the call equal to the call at `off - 1` — the decoder
backs up to the rune start immediately before the offset. -/
theorem readRuneAt_backup (b : TBuf) (off : Int) (c : Nat)
    (hok : b.buf.byteAt off = .ok c) (hns : runeStartB c = false) :
    b.readRuneAt off = b.readRuneAt (off - 1) := by
  have hq : 0 ≤ off := byteAt_ok_nonneg b.buf off c hok
  unfold readRuneAt
  rw [hok]
  show (runeScanE b.buf off c >>= _) = _
  rw [runeScanE_step b.buf off c hq hns]
  cases hb : b.buf.byteAt (off - 1) with
  | error e => rfl
  | ok c2 => rfl

theorem readRuneAt_congr (a b : TBuf) (h : a.buf = b.buf) (off : Int) :
    a.readRuneAt off = b.readRuneAt off := by
  unfold readRuneAt
  rw [h]

/-- `Seek(off, SeekStart)` to an offset that reads as a rune start:
the cursor lands exactly there. -/
theorem seek_start_aligned (b : TBuf) (off : Int)
    (halign : runeStartB (byteAtD b.buf off) = true) :
    b.seek off 0 = ({ b with off := off }, .ok off) := by
  simp only [seek]
  simp only [true_or, if_true]
  rw [backScan_stop b.buf off halign]

theorem nextWordLoop_nonalnum (fuel : Nat) (b2 : TBuf) (r size n : Nat)
    (h : isAlnum r = false) : nextWordLoop (fuel + 1) b2 r size n = n := by
  show (if isAlnum r then _ else n) = n
  rw [if_neg (by rw [h]; exact Bool.false_ne_true)]

theorem prevWordLoop_nonalnum (fuel : Nat) (b2 : TBuf) (r size n : Nat)
    (h : isAlnum r = false) : prevWordLoop (fuel + 1) b2 r size n = (n, size) := by
  show (if isAlnum r then _ else (n, size)) = (n, size)
  rw [if_neg (by rw [h]; exact Bool.false_ne_true)]

theorem prevWordLoop_step (fuel : Nat) (b2 : TBuf) (r size n : Nat)
    (h : isAlnum r = true) :
    prevWordLoop (fuel + 1) b2 r size n =
      match b2.unreadRune with
      | (b3, .ok (r2, s2)) => prevWordLoop fuel b3 r2 s2 (n + s2)
      | (_, .error _) => (n, 0) := by
  show (if isAlnum r then _ else (n, size)) = _
  rw [if_pos h]

/-- `NextWord` is 0 when the rune following the (anchored) offset is
unreadable or not alphanumeric. -/
theorem nextWord_zero (b : TBuf) (off : Int)
    (h : ∀ r s, (((b.seek off 0).1).readRune).2 = .ok (r, s) → isAlnum r = false) :
    b.nextWord off = 0 := by
  unfold nextWord
  cases hrr : ((b.seek off 0).1).readRune with
  | mk b2 res =>
    show (match ((b.seek off 0).1).readRune with
          | (_, .error _) => 0
          | (b2, .ok (r, size)) => nextWordLoop (b.len + 2) b2 r size 0) = 0
    rw [hrr]
    cases res with
    | error e => rfl
    | ok rs =>
      obtain ⟨r, sz⟩ := rs
      have halnum : isAlnum r = false := h r sz (by rw [hrr])
      show nextWordLoop (b.len + 2) b2 r sz 0 = 0
      exact nextWordLoop_nonalnum (b.len + 1) b2 r sz 0 halnum

/-- `PrevWord` is 0 when the rune preceding an aligned offset is
unreadable or not alphanumeric (whatever the rune at the offset
itself is). -/
theorem prevWord_zero (b : TBuf) (off : Int)
    (halign : runeStartB (byteAtD b.buf off) = true)
    (h : ∀ r s, b.readRuneAt (off - 1) = .ok (r, s) → isAlnum r = false) :
    b.prevWord off = 0 := by
  unfold prevWord
  rw [seek_start_aligned b off halign]
  have hRR : ({ b with off := off } : TBuf).readRuneAt off = b.readRuneAt off :=
    readRuneAt_congr _ _ rfl off
  show (let rs : Nat × Nat := match ({ b with off := off } : TBuf).readRuneAt off with
          | .ok p => p
          | .error _ => (0, 0)
        let nl := prevWordLoop (b.len + 2) { b with off := off } rs.1 rs.2 0
        if 0 < nl.1 then nl.1 - nl.2 else nl.1) = 0
  rw [hRR]
  cases hA : b.readRuneAt off with
  | error e =>
    show (let nl := prevWordLoop (b.len + 2) { b with off := off } 0 0 0
          if 0 < nl.1 then nl.1 - nl.2 else nl.1) = 0
    rw [show prevWordLoop (b.len + 2) { b with off := off } 0 0 0 = (0, 0) from
      prevWordLoop_nonalnum (b.len + 1) _ 0 0 0 rfl]
    rfl
  | ok rs0 =>
    obtain ⟨r0, s0⟩ := rs0
    show (let nl := prevWordLoop (b.len + 2) { b with off := off } r0 s0 0
          if 0 < nl.1 then nl.1 - nl.2 else nl.1) = 0
    by_cases ha0 : isAlnum r0 = true
    · rw [show prevWordLoop (b.len + 2) { b with off := off } r0 s0 0 =
          (match ({ b with off := off } : TBuf).unreadRune with
           | (b3, .ok (r2, s2)) => prevWordLoop (b.len + 1) b3 r2 s2 (0 + s2)
           | (_, .error _) => (0, 0)) from
        prevWordLoop_step (b.len + 1) _ r0 s0 0 ha0]
      have hUR : ({ b with off := off } : TBuf).unreadRune =
          (match ({ b with off := off - 1 } : TBuf).readRuneAt (off - 1) with
           | .error e => ({ b with off := off - 1 + 1 }, .error e)
           | .ok (r, size) => ({ b with off := off - 1 + 1 - size }, .ok (r, size))) := by
        show unreadRune _ = _
        unfold unreadRune
        rfl
      rw [hUR]
      have hRR2 : ({ b with off := off - 1 } : TBuf).readRuneAt (off - 1)
          = b.readRuneAt (off - 1) := readRuneAt_congr _ _ rfl _
      rw [hRR2]
      cases hp : b.readRuneAt (off - 1) with
      | error e => rfl
      | ok rs1 =>
        obtain ⟨r1, s1⟩ := rs1
        have ha1 : isAlnum r1 = false := h r1 s1 hp
        show (let nl := prevWordLoop (b.len + 1) { b with off := off - 1 + 1 - (s1 : Int) } r1 s1 (0 + s1)
              if 0 < nl.1 then nl.1 - nl.2 else nl.1) = 0
        rw [show prevWordLoop (b.len + 1) ({ b with off := off - 1 + 1 - (s1 : Int) } : TBuf) r1 s1 (0 + s1)
            = (0 + s1, s1) from prevWordLoop_nonalnum b.len _ r1 s1 (0 + s1) ha1]
        show (if 0 < 0 + s1 then 0 + s1 - s1 else 0 + s1) = 0
        split_ifs <;> omega
    · have ha0f : isAlnum r0 = false := Bool.eq_false_iff.mpr ha0
      rw [show prevWordLoop (b.len + 2) ({ b with off := off } : TBuf) r0 s0 0 = (0, s0) from
        prevWordLoop_nonalnum (b.len + 1) _ r0 s0 0 ha0f]
      rfl

/-- `SetDot` in closed form: both ends clamped into `[0, Len]`, the
inverted case collapsed onto the (clamped) `q1`, then both ends
backed up to rune starts. -/
theorem setDot_eq (b : TBuf) (q0 q1 : Int) :
    b.setDot q0 q1 =
      ({ b with
          q0 := backScan b.buf
            (if min (max q0 0) ((b.len : Int)) > min (max q1 0) ((b.len : Int))
             then min (max q1 0) ((b.len : Int)) else min (max q0 0) ((b.len : Int))),
          q1 := backScan b.buf (min (max q1 0) ((b.len : Int))) },
       (backScan b.buf
            (if min (max q0 0) ((b.len : Int)) > min (max q1 0) ((b.len : Int))
             then min (max q1 0) ((b.len : Int)) else min (max q0 0) ((b.len : Int))),
        backScan b.buf (min (max q1 0) ((b.len : Int)))), none) := by
  have hL : (0 : Int) ≤ (b.len : Int) := by omega
  simp only [TBuf.setDot]
  have e0 : (if q0 < 0 then (0 : Int) else q0) = max q0 0 := by split_ifs <;> omega
  have e1 : (if q1 < 0 then (0 : Int) else q1) = max q1 0 := by split_ifs <;> omega
  rw [e0, e1]
  have e2 : (if max q0 0 ≥ (b.len : Int) then (b.len : Int) else max q0 0)
      = min (max q0 0) ((b.len : Int)) := by split_ifs <;> omega
  have e3 : (if max q1 0 ≥ (b.len : Int) then (b.len : Int) else max q1 0)
      = min (max q1 0) ((b.len : Int)) := by split_ifs <;> omega
  rw [e2, e3]
  have e4 : (if min (max q1 0) ((b.len : Int)) <
        (if min (max q0 0) ((b.len : Int)) > min (max q1 0) ((b.len : Int))
         then min (max q1 0) ((b.len : Int)) else min (max q0 0) ((b.len : Int)))
      then (if min (max q0 0) ((b.len : Int)) > min (max q1 0) ((b.len : Int))
            then min (max q1 0) ((b.len : Int)) else min (max q0 0) ((b.len : Int)))
      else min (max q1 0) ((b.len : Int))) = min (max q1 0) ((b.len : Int)) := by
    split_ifs <;> omega
  rw [e4]

/-- `ReadDot` of a wellformed dot is the selected slice of the
content. -/
theorem readDot_spec (b : TBuf) (hwf : b.buf.WF) (h0 : 0 ≤ b.q0)
    (h01 : b.q0 ≤ b.q1) (h1L : b.q1 ≤ (b.len : Int)) :
    b.readDot = (b.content.drop b.q0.toNat).take (b.q1 - b.q0).toNat := by
  unfold readDot
  by_cases heq : b.q0 = b.q1
  · rw [if_pos heq]
    have : (b.q1 - b.q0).toNat = 0 := by omega
    rw [this, heq, List.take_zero]
  · rw [if_neg heq]
    have hlt : b.q0 < b.q1 := by omega
    have hlen : b.content.length = b.len := bytes_length b.buf
    have hlen2 : b.len = b.buf.len := rfl
    rw [readAt_window_int b.buf hwf (b.q1 - b.q0).toNat b.q0 h0 (by omega) (by omega)]
    rfl

theorem readDot_length (b : TBuf) (hwf : b.buf.WF) (h0 : 0 ≤ b.q0)
    (h01 : b.q0 ≤ b.q1) (h1L : b.q1 ≤ (b.len : Int)) :
    b.readDot.length = (b.q1 - b.q0).toNat := by
  rw [readDot_spec b hwf h0 h01 h1L]
  simp only [List.length_take, List.length_drop]
  have : b.content.length = b.len := bytes_length b.buf
  omega

/-- `commit` of an Insert change: seek to the offset and splice the
content in. -/
theorem commit_insert (b : TBuf) (q : Int) (p : List Nat) (hwf : b.buf.WF)
    (h0 : 0 ≤ q) (hle : q.toNat ≤ b.buf.len) :
    ∃ g2 : GapBuffer, b.commit ⟨q, .hInsert, p⟩ = some ({ b with buf := g2 }, p.length) ∧
      g2.WF ∧ g2.bytes = (b.buf.bytes).take q.toNat ++ p ++ (b.buf.bytes).drop q.toNat ∧
      g2.len = b.buf.len + p.length := by
  simp only [commit]
  have hseek : b.buf.seek q = some (b.buf.seekNat q.toNat) := by
    unfold GapBuffer.seek
    rw [if_neg (by omega)]
  rw [hseek]
  obtain ⟨s1, s2, s3, s4, s5, s6⟩ := GapBuffer.seekNat_spec b.buf q.toNat hwf
  have hst : (b.buf.seekNat q.toNat).start = q.toNat := by rw [s2]; omega
  obtain ⟨w1, w2, w3, w4⟩ := GapBuffer.write_spec p (b.buf.seekNat q.toNat) s1
  refine ⟨(b.buf.seekNat q.toNat).write p, rfl, w1, ?_, by rw [w3, s5]⟩
  rw [GapBuffer.bytes_eq_abs _ w1, w4, hst, s6, GapBuffer.bytes_eq_abs _ hwf]

/-- `commit` of a Delete change: seek past the doomed segment and
delete it byte by byte. -/
theorem commit_delete (b : TBuf) (q : Int) (p : List Nat) (hwf : b.buf.WF)
    (h0 : 0 ≤ q) (hle : q.toNat + p.length ≤ b.buf.len) :
    ∃ g2 : GapBuffer, b.commit ⟨q, .hDelete, p⟩ = some ({ b with buf := g2 }, p.length) ∧
      g2.WF ∧
      g2.bytes = (b.buf.bytes).take q.toNat ++ (b.buf.bytes).drop (q.toNat + p.length) ∧
      g2.len = b.buf.len - p.length := by
  simp only [commit]
  have hcast : (q + (p.length : Int)).toNat = q.toNat + p.length := by omega
  have hseek : b.buf.seek (q + (p.length : Int))
      = some (b.buf.seekNat (q.toNat + p.length)) := by
    unfold GapBuffer.seek
    rw [if_neg (by omega), hcast]
  rw [hseek]
  obtain ⟨s1, s2, s3, s4, s5, s6⟩ := GapBuffer.seekNat_spec b.buf (q.toNat + p.length) hwf
  have hst : (b.buf.seekNat (q.toNat + p.length)).start = q.toNat + p.length := by
    rw [s2]; omega
  obtain ⟨d1, d2, d3, d4⟩ := GapBuffer.deleteIter_spec p.length
    (b.buf.seekNat (q.toNat + p.length)) s1 (by rw [hst]; omega)
  refine ⟨GapBuffer.deleteIter p.length (b.buf.seekNat (q.toNat + p.length)), rfl, d1, ?_,
    by rw [d3, s5]⟩
  rw [GapBuffer.bytes_eq_abs _ d1, d4, hst, s6, GapBuffer.bytes_eq_abs _ hwf]
  congr 2
  omega

/-- `History.Undo` on a non-empty done stack: pops the last change,
pushes the original onto recall, returns the inverse. -/
theorem history_undo_concat (h : History) (ds : List Change) (c : Change)
    (hd : h.done_ = ds ++ [c]) :
    h.undo = .ok
      ({ c with action := match c.action with
          | .hInsert => .hDelete
          | .hDelete => .hInsert },
       ⟨ds, h.recall_ ++ [c]⟩) := by
  unfold History.undo
  rw [hd, List.getLast?_concat, List.dropLast_concat]

/-- `History.Redo` on a non-empty recall stack: pops the last
recalled change and pushes it back onto done, unchanged. -/
theorem history_redo_concat (h : History) (rs : List Change) (c : Change)
    (hr : h.recall_ = rs ++ [c]) :
    h.redo = .ok (c, ⟨h.done_ ++ [c], rs⟩) := by
  unfold History.redo
  rw [hr, List.getLast?_concat, List.dropLast_concat]

/-- `SetDot` only moves the dot. -/
theorem setDot_preserves (b : TBuf) (x y : Int) :
    ((b.setDot x y).1).buf = b.buf ∧ ((b.setDot x y).1).history = b.history ∧
    ((b.setDot x y).1).off = b.off ∧ ((b.setDot x y).1).what = b.what ∧
    ((b.setDot x y).1).dirty = b.dirty := by
  rw [setDot_eq]
  exact ⟨rfl, rfl, rfl, rfl, rfl⟩

/-- `SetDot` at a single in-range, rune-aligned point is exact. -/
theorem setDot_collapse (b : TBuf) (t : Int) (h0 : 0 ≤ t) (hL : t ≤ (b.len : Int))
    (halign : runeStartB (byteAtD b.buf t) = true) :
    b.setDot t t = ({ b with q0 := t, q1 := t }, (t, t), none) := by
  rw [setDot_eq]
  have hc : min (max t 0) ((b.len : Int)) = t := by omega
  rw [hc]
  rw [if_neg (by omega)]
  rw [backScan_stop b.buf t halign]

/-- `SetDot` with an in-range, ordered, rune-aligned pair is exact. -/
theorem setDot_aligned (b : TBuf) (u v : Int) (h0 : 0 ≤ u) (huv : u ≤ v)
    (hL : v ≤ (b.len : Int))
    (halignu : runeStartB (byteAtD b.buf u) = true)
    (halignv : runeStartB (byteAtD b.buf v) = true) :
    b.setDot u v = ({ b with q0 := u, q1 := v }, (u, v), none) := by
  rw [setDot_eq]
  have hcu : min (max u 0) ((b.len : Int)) = u := by omega
  have hcv : min (max v 0) ((b.len : Int)) = v := by omega
  rw [hcu, hcv, if_neg (by omega), backScan_stop b.buf u halignu,
    backScan_stop b.buf v halignv]

/-- After splicing `p` in at position `q`, the byte right after the
splice is the byte that used to sit at `q`. -/
theorem byteAtD_after_insert (g1 g2 : GapBuffer) (hwf1 : g1.WF) (hwf2 : g2.WF)
    (q : Int) (p : List Nat) (h0 : 0 ≤ q) (hle : q ≤ (g1.len : Int))
    (hbytes : g2.bytes = g1.bytes.take q.toNat ++ p ++ g1.bytes.drop q.toNat)
    (hlen2 : g2.len = g1.len + p.length) :
    byteAtD g2 (q + (p.length : Int)) = byteAtD g1 q := by
  have hblen1 : g1.bytes.length = g1.len := bytes_length g1
  have htk : (g1.bytes.take q.toNat).length = q.toNat := by
    rw [List.length_take]; omega
  rcases Int.lt_or_le q (g1.len : Int) with hcase | hcase
  · have hin2 : q + (p.length : Int) < (g2.len : Int) := by omega
    rw [byteAtD_inrange g2 hwf2 _ (by omega) hin2,
        byteAtD_inrange g1 hwf1 q h0 hcase, hbytes]
    have hidx : (q + (p.length : Int)).toNat = q.toNat + p.length := by omega
    rw [hidx]
    rw [List.getD_append_right _ _ _ _ (by simp only [List.length_append, htk]; omega)]
    simp only [List.length_append, htk]
    rw [getD_drop]
    congr 1
    omega
  · have hq1 : (g1.len : Int) ≤ q := hcase
    rw [byteAtD_eof g1 hwf1 q hq1, byteAtD_eof g2 hwf2 _ (by omega)]

/-- `SeekDot(offset, SeekCurrent)` is `SetDot` at `q0 + offset`. -/
theorem seekDot_current (b : TBuf) (offset : Int) :
    b.seekDot offset 1 = ((b.setDot (b.q0 + offset) (b.q0 + offset)).1,
      .ok (b.setDot (b.q0 + offset) (b.q0 + offset)).2.1.1) := by
  unfold seekDot
  rw [if_neg (by decide), if_pos rfl]

/-- The trailing `if b.what == BufferFile { b.dirty = true }` of
`Write`/`Delete` touches only the dirty flag. -/
theorem apply_dirty_fields (b3 : TBuf) :
    (if b3.what = 0 then { b3 with dirty := true } else b3).buf = b3.buf ∧
    (if b3.what = 0 then { b3 with dirty := true } else b3).q0 = b3.q0 ∧
    (if b3.what = 0 then { b3 with dirty := true } else b3).q1 = b3.q1 ∧
    (if b3.what = 0 then { b3 with dirty := true } else b3).off = b3.off ∧
    (if b3.what = 0 then { b3 with dirty := true } else b3).history = b3.history ∧
    (if b3.what = 0 then { b3 with dirty := true } else b3).what = b3.what ∧
    (if b3.what = 0 then { b3 with dirty := true } else b3).content = b3.content ∧
    (if b3.what = 0 then { b3 with dirty := true } else b3).len = b3.len := by
  split_ifs <;> exact ⟨rfl, rfl, rfl, rfl, rfl, rfl, rfl, rfl⟩

/-- `Delete` of a non-empty wellformed selection removes exactly the
selected bytes, records the Delete change, and leaves the dot where
it was. -/
theorem delete_nonempty_spec (b : TBuf) (hwf : b.buf.WF) (h0 : 0 ≤ b.q0)
    (h01 : b.q0 < b.q1) (h1L : b.q1 ≤ (b.len : Int)) :
    ∃ b2 : TBuf, b.delete = some (b2, (b.q1 - b.q0).toNat) ∧
      b2.buf.WF ∧
      b2.content = (b.content).take b.q0.toNat ++ (b.content).drop b.q1.toNat ∧
      b2.len = b.len - (b.q1 - b.q0).toNat ∧
      b2.q0 = b.q0 ∧ b2.q1 = b.q1 ∧ b2.off = b.off ∧ b2.what = b.what ∧
      b2.history = b.history.do_ ⟨b.q0, .hDelete, b.readDot⟩ := by
  have hlenlen : b.len = b.buf.len := rfl
  have hrd : b.readDot.length = (b.q1 - b.q0).toNat :=
    readDot_length b hwf h0 (le_of_lt h01) h1L
  obtain ⟨g2, hc, hwf2, hbytes, hlen2⟩ :=
    commit_delete b b.q0 b.readDot hwf h0 (by rw [hrd]; omega)
  have hbytes2 : g2.bytes = (b.content).take b.q0.toNat ++ (b.content).drop b.q1.toNat := by
    rw [hbytes, hrd]
    show _ = (b.buf.bytes).take b.q0.toNat ++ (b.buf.bytes).drop b.q1.toNat
    congr 2
    omega
  set B3 : TBuf := ({ b with buf := g2, history := b.history.do_ ⟨b.q0, .hDelete, b.readDot⟩ }) with hB3
  have hstep : b.delete = some ((if B3.what = 0 then { B3 with dirty := true } else B3),
      b.readDot.length) := by
    unfold delete
    rw [if_neg (by rw [hrd]; omega)]
    simp only [deleteCore]
    rw [hc]
  rw [hstep, hrd]
  obtain ⟨f1, f2, f3, f4, f5, f6, f7, f8⟩ := apply_dirty_fields B3
  refine ⟨_, rfl, ?_, ?_, ?_, ?_, ?_, ?_, ?_, ?_⟩
  · rw [f1]; exact hwf2
  · show (if B3.what = 0 then { B3 with dirty := true } else B3).buf.bytes = _
    rw [f1]
    exact hbytes2
  · show (if B3.what = 0 then { B3 with dirty := true } else B3).buf.len = _
    rw [f1]
    show g2.len = _
    rw [hlen2, hrd, hlenlen]
  · rw [f2]
  · rw [f3]
  · rw [f4]
  · rw [f6]
  · rw [f5]

/-- After deleting `[q0, q1)`, the byte now at `q0` is the byte that
used to sit at `q1`. -/
theorem byteAtD_after_delete (g1 g2 : GapBuffer) (hwf1 : g1.WF) (hwf2 : g2.WF)
    (q0 q1 : Int) (h0 : 0 ≤ q0) (hle : q0 ≤ q1) (h1L : q1 ≤ (g1.len : Int))
    (hbytes : g2.bytes = g1.bytes.take q0.toNat ++ g1.bytes.drop q1.toNat)
    (hlen2 : g2.len = g1.len - (q1 - q0).toNat) :
    byteAtD g2 q0 = byteAtD g1 q1 := by
  have hblen1 : g1.bytes.length = g1.len := bytes_length g1
  have htk : (g1.bytes.take q0.toNat).length = q0.toNat := by
    rw [List.length_take]; omega
  rcases Int.lt_or_le q1 (g1.len : Int) with hcase | hcase
  · have hin2 : q0 < (g2.len : Int) := by omega
    rw [byteAtD_inrange g2 hwf2 q0 h0 hin2,
        byteAtD_inrange g1 hwf1 q1 (by omega) hcase, hbytes]
    rw [List.getD_append_right _ _ _ _ (by omega)]
    rw [htk, getD_drop]
    congr 1
    omega
  · rw [byteAtD_eof g1 hwf1 q1 hcase, byteAtD_eof g2 hwf2 q0 (by omega)]

/-- The `Write` tail over a wellformed collapsed insertion point:
splice `p` in at `q0`, record the Insert change, and leave the
collapsed dot right after the inserted bytes. -/
theorem writeTail_spec (b2 : TBuf) (p : List Nat) (hwf : b2.buf.WF)
    (h0 : 0 ≤ b2.q0) (h1 : b2.q0 ≤ (b2.len : Int))
    (halign : runeStartB (byteAtD b2.buf b2.q0) = true) :
    ∃ b6 : TBuf, b2.writeTail p = some (b6, p.length) ∧
      b6.buf.WF ∧
      b6.content = (b2.content).take b2.q0.toNat ++ p ++ (b2.content).drop b2.q0.toNat ∧
      b6.len = b2.len + p.length ∧
      b6.q0 = b2.q0 + (p.length : Int) ∧ b6.q1 = b2.q0 + (p.length : Int) ∧
      b6.off = b2.off ∧ b6.what = b2.what ∧
      b6.history = b2.history.do_ ⟨b2.q0, .hInsert, p⟩ := by
  have hlenlen : b2.len = b2.buf.len := rfl
  have hclen : b2.content.length = b2.len := bytes_length b2.buf
  obtain ⟨g2, hc, hwf2, hbytes, hlen2⟩ :=
    commit_insert b2 b2.q0 p hwf h0 (by omega)
  simp only [writeTail]
  rw [hc]
  set B4 : TBuf := ({ b2 with buf := g2, history := b2.history.do_ ⟨b2.q0, HistoryAction.hInsert, p⟩ }) with hB4
  have ht0 : 0 ≤ B4.q0 + (p.length : Int) := by
    show 0 ≤ b2.q0 + (p.length : Int)
    omega
  have htL : B4.q0 + (p.length : Int) ≤ (B4.len : Int) := by
    show b2.q0 + (p.length : Int) ≤ (g2.len : Int)
    omega
  have htal : runeStartB (byteAtD B4.buf (B4.q0 + (p.length : Int))) = true := by
    show runeStartB (byteAtD g2 (b2.q0 + (p.length : Int))) = true
    rw [byteAtD_after_insert b2.buf g2 hwf hwf2 b2.q0 p h0 (by omega) hbytes hlen2]
    exact halign
  have hsd : (B4.seekDot ((p.length : Nat) : Int) 1).1 =
      { B4 with q0 := B4.q0 + (p.length : Int), q1 := B4.q0 + (p.length : Int) } := by
    rw [seekDot_current, setDot_collapse B4 (B4.q0 + (p.length : Int)) ht0 htL htal]
  show ∃ b6, some ((if ((B4.seekDot ((p.length : Nat) : Int) 1).1).what = 0
      then { (B4.seekDot ((p.length : Nat) : Int) 1).1 with dirty := true }
      else (B4.seekDot ((p.length : Nat) : Int) 1).1), p.length) = some (b6, p.length) ∧ _
  rw [hsd]
  obtain ⟨f1, f2, f3, f4, f5, f6, f7, f8⟩ := apply_dirty_fields
    ({ B4 with q0 := B4.q0 + (p.length : Int), q1 := B4.q0 + (p.length : Int) })
  refine ⟨_, rfl, ?_, ?_, ?_, ?_, ?_, ?_, ?_, ?_⟩
  · rw [f1]; exact hwf2
  · rw [f7]
    show g2.bytes = _
    rw [hbytes]
    rfl
  · rw [f8]
    show g2.len = _
    rw [hlen2, hlenlen]
  · rw [f2]
  · rw [f3]
  · rw [f4]
  · rw [f6]
  · rw [f5]

/-- `Write` over a wellformed dot: delete the selection if non-empty,
splice `p` in at `q0`, and leave the collapsed dot right after the
inserted text. -/
theorem write_spec_t (b : TBuf) (p : List Nat) (hwf : b.buf.WF)
    (h0 : 0 ≤ b.q0) (h01 : b.q0 ≤ b.q1) (h1L : b.q1 ≤ (b.len : Int))
    (halign : runeStartB (byteAtD b.buf b.q1) = true) :
    ∃ b2 : TBuf, b.write p = some (b2, p.length) ∧ b2.buf.WF ∧
      b2.content = (b.content).take b.q0.toNat ++ p ++ (b.content).drop b.q1.toNat ∧
      b2.len = b.len - (b.q1 - b.q0).toNat + p.length ∧
      b2.q0 = b.q0 + (p.length : Int) ∧ b2.q1 = b.q0 + (p.length : Int) := by
  have hlenlen : b.len = b.buf.len := rfl
  have hclen : b.content.length = b.len := bytes_length b.buf
  have hrd : b.readDot.length = (b.q1 - b.q0).toNat := readDot_length b hwf h0 h01 h1L
  by_cases hq : b.q0 = b.q1
  · have hempty : ¬ 0 < b.readDot.length := by rw [hrd]; omega
    obtain ⟨b6, h6, hwf6, hcon6, hlen6, hq06, hq16, _, _, _⟩ :=
      writeTail_spec b p hwf h0 (by omega) (by rw [hq]; exact halign)
    refine ⟨b6, ?_, hwf6, ?_, ?_, hq06, hq16⟩
    · unfold write
      rw [if_neg hempty]
      exact h6
    · rw [hcon6, hq]
    · rw [hlen6]
      omega
  · have h01lt : b.q0 < b.q1 := by omega
    have hpos : 0 < b.readDot.length := by rw [hrd]; omega
    obtain ⟨d2, hdel, hwfd, hdcon, hdlen, hdq0, hdq1, hdoff, hdwhat, hdhist⟩ :=
      delete_nonempty_spec b hwf h0 h01lt h1L
    have hd0 : 0 ≤ d2.q0 := by rw [hdq0]; omega
    have hd1 : d2.q0 ≤ (d2.len : Int) := by rw [hdq0, hdlen]; omega
    have hdal : runeStartB (byteAtD d2.buf d2.q0) = true := by
      rw [hdq0]
      rw [byteAtD_after_delete b.buf d2.buf hwf hwfd b.q0 b.q1 h0 h01
        (by omega) hdcon hdlen]
      exact halign
    obtain ⟨b6, h6, hwf6, hcon6, hlen6, hq06, hq16, _, _, _⟩ :=
      writeTail_spec d2 p hwfd hd0 hd1 hdal
    have htkA : ((b.content).take b.q0.toNat).length = b.q0.toNat := by
      rw [List.length_take]; omega
    refine ⟨b6, ?_, hwf6, ?_, ?_, ?_, ?_⟩
    · unfold write
      rw [if_pos hpos, hdel]
      show d2.writeTail p = some (b6, p.length)
      exact h6
    · rw [hcon6, hdcon, hdq0]
      rw [List.take_left' htkA, List.drop_left' htkA]
    · rw [hlen6, hdlen]
    · rw [hq06, hdq0]
    · rw [hq16, hdq0]

/-- `byteAtD` only depends on the logical content (given
wellformedness). -/
theorem byteAtD_congr2 (g1 g2 : GapBuffer) (hwf1 : g1.WF) (hwf2 : g2.WF)
    (hb : g1.bytes = g2.bytes) (q : Int) : byteAtD g1 q = byteAtD g2 q := by
  have hl : g1.len = g2.len := by rw [← bytes_length g1, ← bytes_length g2, hb]
  rcases Int.lt_or_le q 0 with h | h
  · rw [byteAtD_neg g1 q h, byteAtD_neg g2 q h]
  · rcases Int.lt_or_le q (g1.len : Int) with h2 | h2
    · rw [byteAtD_inrange g1 hwf1 q h h2, byteAtD_inrange g2 hwf2 q h (by omega), hb]
    · rw [byteAtD_eof g1 hwf1 q h2, byteAtD_eof g2 hwf2 q (by omega)]

/-- `Undo` unfolded through a known history pop and a known commit. -/
theorem undo_eq (b : TBuf) (cI : Change) (h2 : History) (b2 : TBuf) (k : Nat)
    (hu : b.history.undo = .ok (cI, h2))
    (hcm : ({ b with history := h2 } : TBuf).commit cI = some (b2, k)) :
    b.undo = some ((b2.setDot cI.offset (cI.offset + (cI.content.length : Int))).1, none) := by
  unfold undo
  rw [hu]
  show (match ({ b with history := h2 } : TBuf).commit cI with
      | none => none
      | some (b2, _) =>
        some ((b2.setDot cI.offset (cI.offset + (cI.content.length : Int))).1, none)) = _
  rw [hcm]

/-- `Redo` unfolded through a known history pop and a known commit. -/
theorem redo_eq (b : TBuf) (c : Change) (h2 : History) (b2 : TBuf) (k : Nat)
    (hr : b.history.redo = .ok (c, h2))
    (hcm : ({ b with history := h2 } : TBuf).commit c = some (b2, k)) :
    b.redo = some ((if c.action = .hDelete then (b2.setDot c.offset c.offset).1
      else (b2.setDot (c.offset + (c.content.length : Int))
        (c.offset + (c.content.length : Int))).1), none) := by
  unfold redo
  rw [hr]
  show (match ({ b with history := h2 } : TBuf).commit c with
      | none => none
      | some (b2, _) =>
        some ((if c.action = HistoryAction.hDelete then (b2.setDot c.offset c.offset).1
          else (b2.setDot (c.offset + (c.content.length : Int))
            (c.offset + (c.content.length : Int))).1), none)) = _
  rw [hcm]

end TBuf

/-! ## Claim theorems -/

/-- **C1**: the gap buffer refines the flat byte-sequence model — for
every sequence of Seek/Write/Delete operations from an empty buffer,
`Bytes()` equals the reference content, `Len()` matches, `ByteAt(i)`
agrees with the reference at every `i` in `[0, Len())`, and a `Seek`
alone (any gap movement) never changes the logical content or
`Len()`. -/
theorem c1_gap_buffer_refines_flat_model (ops : List GapOp) :
    (runGap ops).bytes = (runFlat ops).content ∧
    (runGap ops).len = (runFlat ops).content.length ∧
    (∀ i : Nat, i < (runGap ops).len →
      (runGap ops).byteAt (i : Int) = .ok ((runFlat ops).content.getD i 0)) ∧
    (∀ pos : Nat, ((runGap ops).seekNat pos).bytes = (runGap ops).bytes ∧
      ((runGap ops).seekNat pos).len = (runGap ops).len) := by
  obtain ⟨hwf, habs, hpos⟩ := runGap_wf ops
  have hb := GapBuffer.bytes_eq_abs (runGap ops) hwf
  refine ⟨by rw [hb, habs], ?_, ?_, ?_⟩
  · rw [← habs]
    exact (GapBuffer.abs_length _ hwf).symm
  · intro i hi
    rw [GapBuffer.byteAt_abs _ hwf i hi, habs]
  · intro pos
    obtain ⟨v1, v2, v3, v4, v5, v6⟩ := GapBuffer.seekNat_spec (runGap ops) pos hwf
    constructor
    · rw [GapBuffer.bytes_eq_abs _ v1, v6]
      exact hb.symm
    · exact v5

/-- **C1** witness: the refinement evaluated on a concrete operation
sequence (write "hello", seek 2, delete, write "!"). -/
theorem c1_witness :
    (runGap demoOps).bytes = [104, 33, 108, 108, 111] ∧
    (runGap demoOps).byteAt ((0 : Nat) : Int) = .ok 104 := by
  obtain ⟨h1, h2, h3, h4⟩ := c1_gap_buffer_refines_flat_model demoOps
  constructor
  · rw [h1]; decide
  · rw [h3 0 (by decide)]; decide

/-- **C6** counterexample: the claim as stated is false — a negative
`Seek` target on the (first-revision) gap buffer reaches
`panic("index below zero")` instead of returning normally. -/
theorem c6_counterexample : GapBuffer.empty.seek (-1) = none := by decide

/-- **C6** (amended): for every wellformed gap buffer and every
non-negative target, `Seek` returns normally with the gap start at
the position clamped into `[0, Len()]` and the content untouched;
the second revision's `Seek` additionally clamps negative targets to
0 and never panics.  A negative target panics in the first revision
(see the counterexample). -/
theorem c6_seek_clamps (b : GapBuffer) (hwf : b.WF) :
    (∀ pos : Int, 0 ≤ pos →
      ∃ b2, b.seek pos = some b2 ∧ b2.start = min pos.toNat b.len ∧
        b2.bytes = b.bytes ∧ b2.len = b.len ∧ b2.WF) ∧
    (∀ pos : Int, (b.seekClamp pos).start = min pos.toNat b.len ∧
      (b.seekClamp pos).bytes = b.bytes ∧ (b.seekClamp pos).len = b.len) := by
  have hb := GapBuffer.bytes_eq_abs b hwf
  constructor
  · intro pos hpos
    obtain ⟨v1, v2, v3, v4, v5, v6⟩ := GapBuffer.seekNat_spec b pos.toNat hwf
    refine ⟨b.seekNat pos.toNat, ?_, v2, ?_, v5, v1⟩
    · simp only [GapBuffer.seek]
      rw [if_neg (by omega)]
    · rw [GapBuffer.bytes_eq_abs _ v1, v6]
      exact hb.symm
  · intro pos
    obtain ⟨v1, v2, v3, v4, v5, v6⟩ := GapBuffer.seekNat_spec b pos.toNat hwf
    refine ⟨v2, ?_, v5⟩
    show (b.seekNat pos.toNat).bytes = b.bytes
    rw [GapBuffer.bytes_eq_abs _ v1, v6]
    exact hb.symm

/-- **C6** witness: seeking to 2 (and to a negative target through the
second revision) on a buffer holding "hello". -/
theorem c6_witness :
    (∃ b2, (runGap [GapOp.write helloBytes]).seek 2 = some b2 ∧ b2.start = 2) ∧
    ((runGap [GapOp.write helloBytes]).seekClamp (-7)).start = 0 := by
  obtain ⟨h1, h2⟩ := c6_seek_clamps (runGap [GapOp.write helloBytes]) (by decide)
  constructor
  · obtain ⟨b2, e1, e2, e3, e4, e5⟩ := h1 2 (by omega)
    exact ⟨b2, e1, by rw [e2]; decide⟩
  · rw [(h2 (-7)).1]
    decide

/-- **C4** (code-bug evaluation): `Delete()` with an empty selection
at offset 0 does return `(0, nil)` without touching the content, but
leaves `q0 = -1`, breaking the invariant `0 ≤ q0`; likewise deleting
the full selection `"hello"` leaves `q1 = 5 > Len() = 0`.  Both are
evaluated on the embedded source. -/
theorem c4_delete_breaks_dot_invariant :
    (TBuf.empty.delete = some ({ TBuf.empty with q0 := -1 }, 0)) ∧
    sc3.q0 = 0 ∧ sc3.q1 = 5 ∧ sc3.len = 0 := by decide

/-- **C7** (code-bug evaluation): with content `"abc"` and read
cursor 2, `Seek(0, io.SeekCurrent)` must return 2 (`cursor + offset`
under the `io.Seeker` contract the method documents), but the source
assigns `b.off = offset` before the switch, so the `SeekCurrent` arm
computes `offset + offset` and the call returns 0. -/
theorem c7_seekcurrent_ignores_cursor :
    cursorBuf.off = 2 ∧ (cursorBuf.seek 0 1).2 = .ok 0 ∧
    (cursorBuf.seek 0 1).1.off = 0 := by decide

/-- **C2** counterexample: running the claimed sequence
`Write("hello"); SetDot(0,5); Delete(); Undo(); Undo(); Redo();
Redo()` step by step (each step succeeding), the final content is
empty — the second `Redo` replays the recorded `Delete` — not
`"hello"` as the claim states. -/
theorem c2_counterexample :
    (TBuf.empty.write helloBytes).isSome ∧ (sc2.delete).isSome ∧
    (sc3.undo).isSome ∧ (sc4.undo).isSome ∧ (sc5.redo).isSome ∧
    (sc6.redo).isSome ∧ sc7.content = [] ∧ ¬ sc7.content = helloBytes := by decide

/-- **C8** counterexample: on `"abc def"`, `PrevWord(7)` returns 0,
not 3 — `ReadRuneAt(7)` at end of buffer fails, so the backward scan
never starts. -/
theorem c8_counterexample : wordsBuf.prevWord 7 = 0 ∧ ¬ wordsBuf.prevWord 7 = 3 := by decide


/-- **C5**: `SetDot(q0, q1)` clamps both ends into `[0, Len()]`,
collapses an inverted range onto the (clamped) `q1` rather than
swapping, re-anchors each end to the nearest rune start at or before
it, and returns the final offsets with a nil error; the results never
point inside a multi-byte encoding.  The hypothesis asks offset 0 to
read as a rune start — true for every valid-UTF-8 (or empty) buffer;
without it no rune start may exist at all below a mid-rune offset. -/
theorem c5_setdot_clamps_collapses_anchors (b : TBuf) (q0 q1 : Int)
    (hwf : b.buf.WF) (h0 : runeStartB (TBuf.byteAtD b.buf 0) = true) :
    ∃ r0 r1 : Int,
      b.setDot q0 q1 = ({ b with q0 := r0, q1 := r1 }, (r0, r1), none) ∧
      0 ≤ r0 ∧ r0 ≤ r1 ∧ r1 ≤ (b.len : Int) ∧
      runeStartB (TBuf.byteAtD b.buf r0) = true ∧
      runeStartB (TBuf.byteAtD b.buf r1) = true ∧
      r0 ≤ (if min (max q0 0) ((b.len : Int)) > min (max q1 0) ((b.len : Int))
            then min (max q1 0) ((b.len : Int)) else min (max q0 0) ((b.len : Int))) ∧
      (∀ j, r0 < j →
        j ≤ (if min (max q0 0) ((b.len : Int)) > min (max q1 0) ((b.len : Int))
             then min (max q1 0) ((b.len : Int)) else min (max q0 0) ((b.len : Int))) →
        runeStartB (TBuf.byteAtD b.buf j) = false) ∧
      r1 ≤ min (max q1 0) ((b.len : Int)) ∧
      (∀ j, r1 < j → j ≤ min (max q1 0) ((b.len : Int)) →
        runeStartB (TBuf.byteAtD b.buf j) = false) ∧
      (min (max q0 0) ((b.len : Int)) > min (max q1 0) ((b.len : Int)) → r0 = r1) := by
  have hL : (0 : Int) ≤ (b.len : Int) := by omega
  set L : Int := (b.len : Int) with hLdef
  set c0 : Int := min (max q0 0) L with hc0
  set c1 : Int := min (max q1 0) L with hc1
  set d0 : Int := if c0 > c1 then c1 else c0 with hd0
  have hc0r : 0 ≤ c0 ∧ c0 ≤ L := by rw [hc0]; omega
  have hc1r : 0 ≤ c1 ∧ c1 ≤ L := by rw [hc1]; omega
  have hd0r : 0 ≤ d0 ∧ d0 ≤ c1 := by
    rw [hd0]; split_ifs <;> omega
  obtain ⟨a1, a2, a3, a4⟩ := TBuf.backScan_spec b.buf d0 h0 hd0r.1
  obtain ⟨e1, e2, e3, e4⟩ := TBuf.backScan_spec b.buf c1 h0 hc1r.1
  have hr01 : TBuf.backScan b.buf d0 ≤ TBuf.backScan b.buf c1 := by
    by_contra hcon
    have hlt : TBuf.backScan b.buf c1 < TBuf.backScan b.buf d0 := by omega
    have := e4 (TBuf.backScan b.buf d0) hlt (by omega)
    rw [a3] at this
    cases this
  refine ⟨TBuf.backScan b.buf d0, TBuf.backScan b.buf c1, ?_, a1, hr01, by omega,
    a3, e3, a2, a4, e2, e4, ?_⟩
  · rw [TBuf.setDot_eq b q0 q1]
  · intro hinv
    have : d0 = c1 := by rw [hd0, if_pos hinv]
    rw [this]

/-- **C5** witness: on the buffer holding `"héllo\nworld"`,
`SetDot(2, 2)` (a mid-rune offset) anchors both ends back to offset
1, the start of the two-byte `é`. -/
theorem c5_witness :
    accentBuf.setDot 2 2 = ({ accentBuf with q0 := 1, q1 := 1 }, (1, 1), none) ∧
    runeStartB (TBuf.byteAtD accentBuf.buf 1) = true := by
  obtain ⟨r0, r1, heq, h1, h2, h3, h4, h5, hrest⟩ :=
    c5_setdot_clamps_collapses_anchors accentBuf 2 2 (by decide) (by decide)
  have hval : accentBuf.setDot 2 2 = ({ accentBuf with q0 := 1, q1 := 1 }, (1, 1), none) := by
    decide
  refine ⟨hval, ?_⟩
  have : (r0, r1) = (1, 1) := by
    have := heq.symm.trans hval
    exact congrArg (fun t => t.2.1) this
  have hr0 : r0 = 1 := by
    have := congrArg Prod.fst this
    simpa using this
  rw [← hr0]
  exact h4

/-- **C9**: `ReadRuneAt` decodes the rune whose encoding starts at or
immediately before the offset: bytes below 0x80 decode as single-byte
runes (first conjunct), a continuation byte defers to the previous
offset (second conjunct: the call equals the call one byte earlier),
and on `"héllo\nworld"` both `ReadRuneAt(1)` and the mid-rune
`ReadRuneAt(2)` return `é` (code point 233) with size 2.  The
embedding of `ReadRuneAt` is a pure function of the buffer, so the
sequential read cursor is untouched by construction. -/
theorem c9_read_rune_at_decodes (b : TBuf) :
    (∀ (off : Int) (c : Nat), b.buf.byteAt off = .ok c → c < 0x80 →
      b.readRuneAt off = .ok (c, 1)) ∧
    (∀ (off : Int) (c : Nat), b.buf.byteAt off = .ok c → runeStartB c = false →
      b.readRuneAt off = b.readRuneAt (off - 1)) ∧
    accentBuf.readRuneAt 1 = .ok (233, 2) ∧
    accentBuf.readRuneAt 2 = .ok (233, 2) := by
  refine ⟨fun off c hok hc => TBuf.readRuneAt_ascii b off c hok hc,
    fun off c hok hns => TBuf.readRuneAt_backup b off c hok hns, by decide, by decide⟩

/-- **C9** witness: the ASCII fast path at offset 0 of
`"héllo\nworld"` and the continuation-byte backup at offset 2. -/
theorem c9_witness :
    accentBuf.readRuneAt 0 = .ok (104, 1) ∧
    accentBuf.readRuneAt 2 = accentBuf.readRuneAt 1 := by
  obtain ⟨h1, h2, h3, h4⟩ := c9_read_rune_at_decodes accentBuf
  exact ⟨h1 0 104 (by decide) (by decide), h2 2 0xA9 (by decide) (by decide)⟩


/-- **C8** (amended): `NextWord` returns 0 when the rune following
the offset is unreadable or not alphanumeric, and `PrevWord` returns
0 when the rune preceding the (aligned) offset is unreadable or not
alphanumeric; on `"abc def"`, `NextWord(0)` returns 3 (covering
`"abc"`) while `PrevWord(7)` returns 0 — not 3 as claimed — because
`ReadRuneAt(7)` at end-of-buffer fails before the scan starts. -/
theorem c8_word_scan_boundary :
    (∀ (b : TBuf) (off : Int),
      (∀ r s, (((b.seek off 0).1).readRune).2 = .ok (r, s) → isAlnum r = false) →
      b.nextWord off = 0) ∧
    (∀ (b : TBuf) (off : Int), runeStartB (TBuf.byteAtD b.buf off) = true →
      (∀ r s, b.readRuneAt (off - 1) = .ok (r, s) → isAlnum r = false) →
      b.prevWord off = 0) ∧
    wordsBuf.nextWord 0 = 3 ∧ wordsBuf.prevWord 7 = 0 :=
  ⟨fun b off h => TBuf.nextWord_zero b off h,
   fun b off ha h => TBuf.prevWord_zero b off ha h, by decide, by decide⟩

/-- **C8** witness: on `"abc def"`, the space after `"abc"` stops a
forward scan from offset 3 and a backward scan from offset 4. -/
theorem c8_witness : wordsBuf.nextWord 3 = 0 ∧ wordsBuf.prevWord 4 = 0 := by
  obtain ⟨h1, h2, h3, h4⟩ := c8_word_scan_boundary
  constructor
  · refine h1 wordsBuf 3 (fun r s hok => ?_)
    rw [show (((wordsBuf.seek 3 0).1).readRune).2 = Except.ok ((32 : Nat), (1 : Nat)) from
      by decide] at hok
    cases hok
    decide
  · refine h2 wordsBuf 4 (by decide) (fun r s hok => ?_)
    rw [show wordsBuf.readRuneAt (4 - 1) = Except.ok ((32 : Nat), (1 : Nat)) from
      by decide] at hok
    cases hok
    decide

/-- **C3**: `Write(p)` over a wellformed dot returns `(len(p), nil)`,
replaces the selection — the new content is
`old[0:q0] ++ p ++ old[q1:]` — and collapses the selection right
after the inserted bytes (`q0 = q1 = insertion offset + len(p)`,
where the insertion offset is the original `q0`). -/
theorem c3_write_replaces_selection (b : TBuf) (p : List Nat) (hwf : b.buf.WF)
    (h0 : 0 ≤ b.q0) (h01 : b.q0 ≤ b.q1) (h1L : b.q1 ≤ (b.len : Int))
    (halign : runeStartB (TBuf.byteAtD b.buf b.q1) = true) :
    ∃ b2 : TBuf, b.write p = some (b2, p.length) ∧
      b2.content = (b.content).take b.q0.toNat ++ p ++ (b.content).drop b.q1.toNat ∧
      b2.q0 = b.q0 + (p.length : Int) ∧ b2.q1 = b.q0 + (p.length : Int) := by
  obtain ⟨b2, he, _, hcon, _, hq0, hq1⟩ := TBuf.write_spec_t b p hwf h0 h01 h1L halign
  exact ⟨b2, he, hcon, hq0, hq1⟩

/-- **C3** witness: writing `"x"` over the selection `(0,5)` of
`"hello"` yields content `"x"` with the dot collapsed at 1. -/
theorem c3_witness :
    ∃ b2 : TBuf, sc2.write [120] = some (b2, 1) ∧
      b2.content = (sc2.content).take sc2.q0.toNat ++ [120] ++ (sc2.content).drop sc2.q1.toNat ∧
      b2.q0 = sc2.q0 + (1 : Int) ∧ b2.q1 = sc2.q0 + (1 : Int) :=
  c3_write_replaces_selection sc2 [120] (by decide) (by decide) (by decide)
    (by decide) (by decide)

/-- **C10**: `History.Undo` pushes the change onto the recall stack
exactly as originally recorded (only the returned local copy has its
action inverted), so `History.Redo` returns the original change, the
done stack again ends with the original (non-inverted) change, and a
subsequent `Undo` pops and inverts that original again — undo/redo
cycles are stable. -/
theorem c10_history_keeps_original_change (h : History) (ds : List Change) (c : Change)
    (hd : h.done_ = ds ++ [c]) :
    ∃ (cInv : Change) (h2 : History), h.undo = .ok (cInv, h2) ∧
      h2.done_ = ds ∧ h2.recall_ = h.recall_ ++ [c] ∧
      cInv.offset = c.offset ∧ cInv.content = c.content ∧
      cInv.action = (match c.action with
        | .hInsert => .hDelete
        | .hDelete => .hInsert) ∧
      h2.redo = .ok (c, (⟨h.done_, h.recall_⟩ : History)) ∧
      (⟨h.done_, h.recall_⟩ : History).undo = .ok (cInv, h2) := by
  have hu := TBuf.history_undo_concat h ds c hd
  refine ⟨_, _, hu, rfl, rfl, rfl, rfl, rfl, ?_, ?_⟩
  · rw [hd]
    exact TBuf.history_redo_concat _ h.recall_ c rfl
  · exact TBuf.history_undo_concat _ ds c hd

/-- **C10** witness: one recorded Insert of `"hello"`; the recall
stack keeps the original Insert and the redo/undo cycle is stable. -/
theorem c10_witness :
    ∃ (cInv : Change) (h2 : History),
      (⟨[⟨0, .hInsert, helloBytes⟩], []⟩ : History).undo = .ok (cInv, h2) ∧
      h2.done_ = [] ∧
      h2.recall_ = (⟨[⟨0, .hInsert, helloBytes⟩], []⟩ : History).recall_ ++
        [⟨0, .hInsert, helloBytes⟩] ∧
      cInv.offset = (⟨0, .hInsert, helloBytes⟩ : Change).offset ∧
      cInv.content = (⟨0, .hInsert, helloBytes⟩ : Change).content ∧
      cInv.action = (match (⟨0, .hInsert, helloBytes⟩ : Change).action with
        | .hInsert => .hDelete
        | .hDelete => .hInsert) ∧
      h2.redo = .ok (⟨0, .hInsert, helloBytes⟩,
        (⟨(⟨[⟨0, .hInsert, helloBytes⟩], []⟩ : History).done_,
          (⟨[⟨0, .hInsert, helloBytes⟩], []⟩ : History).recall_⟩ : History)) ∧
      (⟨(⟨[⟨0, .hInsert, helloBytes⟩], []⟩ : History).done_,
        (⟨[⟨0, .hInsert, helloBytes⟩], []⟩ : History).recall_⟩ : History).undo =
        .ok (cInv, h2) :=
  c10_history_keeps_original_change ⟨[⟨0, .hInsert, helloBytes⟩], []⟩ []
    ⟨0, .hInsert, helloBytes⟩ (by decide)

/-- **C2** (amended): for a single-change edit — a `Write` issued with
a collapsed dot, or a `Delete` of a non-empty selection — `Undo`
right after the edit restores the content exactly to the pre-edit
state (and for `Delete` also the selection), and `Redo` right after
that `Undo` restores the content exactly to the post-edit state.  In
the claimed scenario the first `Undo` yields `"hello"` with selection
`(0,5)` and the second yields empty content, the first `Redo` yields
`"hello"` again, but the second `Redo` replays the recorded `Delete`,
so the sequence ends with empty content, not `"hello"`. -/
theorem c2_undo_redo_restore :
    (∀ (b : TBuf) (p : List Nat), b.buf.WF → 0 ≤ b.q0 → b.q0 = b.q1 →
      b.q0 ≤ (b.len : Int) →
      runeStartB (TBuf.byteAtD b.buf b.q0) = true →
      ∀ b2 n, b.write p = some (b2, n) →
        ∃ b3, b2.undo = some (b3, none) ∧ b3.content = b.content ∧
          ∃ b4, b3.redo = some (b4, none) ∧ b4.content = b2.content) ∧
    (∀ b : TBuf, b.buf.WF → 0 ≤ b.q0 → b.q0 < b.q1 → b.q1 ≤ (b.len : Int) →
      runeStartB (TBuf.byteAtD b.buf b.q0) = true →
      runeStartB (TBuf.byteAtD b.buf b.q1) = true →
      ∀ b2 n, b.delete = some (b2, n) →
        ∃ b3, b2.undo = some (b3, none) ∧ b3.content = b.content ∧
          b3.q0 = b.q0 ∧ b3.q1 = b.q1 ∧
          ∃ b4, b3.redo = some (b4, none) ∧ b4.content = b2.content) ∧
    sc4.content = helloBytes ∧ sc4.q0 = 0 ∧ sc4.q1 = 5 ∧
    sc5.content = [] ∧ sc6.content = helloBytes ∧ sc7.content = [] := by
  refine ⟨?_, ?_, by decide, by decide, by decide, by decide, by decide, by decide⟩
  · -- Write from a collapsed dot, then Undo, then Redo.
    intro b p hwf h0 hq h1L halign b2 n hw
    have hlenlen : b.len = b.buf.len := rfl
    have hclen : b.content.length = b.len := bytes_length b.buf
    have hrdnil : b.readDot = [] := by unfold TBuf.readDot; rw [if_pos hq]
    have hempty : ¬ 0 < b.readDot.length := by rw [hrdnil]; decide
    obtain ⟨b6, h6, hwf6, hcon6, hlen6, hq06, hq16, hoff6, hwhat6, hhist6⟩ :=
      TBuf.writeTail_spec b p hwf h0 (by omega) halign
    have hw6 : b.write p = some (b6, p.length) := by
      unfold TBuf.write
      rw [if_neg hempty]
      exact h6
    rw [hw6] at hw
    injection hw with hpair
    injection hpair with hb2 hn
    subst hb2
    -- Undo pops the Insert, commits the inverse Delete.
    have hu : b6.history.undo = Except.ok
        ((⟨b.q0, HistoryAction.hDelete, p⟩ : Change),
         (⟨b.history.done_, [(⟨b.q0, HistoryAction.hInsert, p⟩ : Change)]⟩ : History)) := by
      rw [hhist6]
      exact TBuf.history_undo_concat (b.history.do_ ⟨b.q0, HistoryAction.hInsert, p⟩)
        b.history.done_ ⟨b.q0, HistoryAction.hInsert, p⟩ rfl
    set BU : TBuf := ({ b6 with history := (⟨b.history.done_, [(⟨b.q0, HistoryAction.hInsert, p⟩ : Change)]⟩ : History) }) with hBU
    have hb6len : b6.len = b6.buf.len := rfl
    obtain ⟨g3, hc3, hwf3, hby3, hln3⟩ := TBuf.commit_delete BU b.q0 p hwf6 h0
      (by show b.q0.toNat + p.length ≤ b6.buf.len; omega)
    have hund : b6.undo = some ((({ BU with buf := g3 } : TBuf).setDot b.q0
        (b.q0 + (p.length : Int))).1, none) :=
      TBuf.undo_eq b6 ⟨b.q0, HistoryAction.hDelete, p⟩ _ _ _ hu hc3
    have htkA : ((b.content).take b.q0.toNat).length = b.q0.toNat := by
      rw [List.length_take]; omega
    have hg3 : g3.bytes = b.content := by
      have h1 : g3.bytes = (b6.content).take b.q0.toNat ++
          (b6.content).drop (b.q0.toNat + p.length) := hby3
      have ht : (((b.content).take b.q0.toNat ++ p) ++
          (b.content).drop b.q0.toNat).take b.q0.toNat = (b.content).take b.q0.toNat := by
        rw [List.append_assoc]
        exact List.take_left' htkA
      have hd : (((b.content).take b.q0.toNat ++ p) ++
          (b.content).drop b.q0.toNat).drop (b.q0.toNat + p.length) =
          (b.content).drop b.q0.toNat := by
        refine List.drop_left' ?_
        rw [List.length_append, htkA]
      rw [h1, hcon6, ht, hd, List.take_append_drop]
    refine ⟨_, hund, ?_, ?_⟩
    · have hbb : ((({ BU with buf := g3 } : TBuf).setDot b.q0
          (b.q0 + (p.length : Int))).1).content = g3.bytes := by
        show ((({ BU with buf := g3 } : TBuf).setDot b.q0
          (b.q0 + (p.length : Int))).1).buf.bytes = g3.bytes
        rw [(TBuf.setDot_preserves _ _ _).1]
      rw [hbb, hg3]
    · -- Redo re-commits the Insert.
      set B3 : TBuf := ((({ BU with buf := g3 } : TBuf).setDot b.q0 (b.q0 + (p.length : Int))).1) with hB3
      have hbufB3 : B3.buf = g3 := by
        rw [hB3, (TBuf.setDot_preserves _ _ _).1]
      have hh3 : B3.history = (⟨b.history.done_, [(⟨b.q0, HistoryAction.hInsert, p⟩ : Change)]⟩ : History) := by
        rw [hB3, (TBuf.setDot_preserves _ _ _).2.1]
      have hrd3 : B3.history.redo = Except.ok
          ((⟨b.q0, HistoryAction.hInsert, p⟩ : Change),
           (⟨b.history.done_ ++ [(⟨b.q0, HistoryAction.hInsert, p⟩ : Change)], ([] : List Change)⟩ : History)) := by
        rw [hh3]
        exact TBuf.history_redo_concat _ [] _ rfl
      set BR : TBuf := ({ B3 with history := (⟨b.history.done_ ++ [(⟨b.q0, HistoryAction.hInsert, p⟩ : Change)], ([] : List Change)⟩ : History) }) with hBR
      have hwfB3 : B3.buf.WF := by rw [hbufB3]; exact hwf3
      have hBRlen : BR.buf = B3.buf := rfl
      obtain ⟨g4, hc4, hwf4, hby4, hln4⟩ := TBuf.commit_insert BR b.q0 p hwfB3 h0
        (by show b.q0.toNat ≤ BR.buf.len
            rw [hBRlen, hbufB3]
            have h2 : BU.buf.len = b6.len := rfl
            omega)
      have hred : B3.redo = some (((({ BR with buf := g4 } : TBuf)).setDot
          (b.q0 + (p.length : Int)) (b.q0 + (p.length : Int))).1, none) :=
        TBuf.redo_eq B3 ⟨b.q0, HistoryAction.hInsert, p⟩ _ _ _ hrd3 hc4
      refine ⟨_, hred, ?_⟩
      have hg4 : g4.bytes = b6.content := by
        have h1 : g4.bytes = (BR.buf.bytes).take b.q0.toNat ++ p ++
            (BR.buf.bytes).drop b.q0.toNat := hby4
        rw [h1, hBRlen, hbufB3, hg3, hcon6]
      show (((({ BR with buf := g4 } : TBuf)).setDot
          (b.q0 + (p.length : Int)) (b.q0 + (p.length : Int))).1).buf.bytes = b6.content
      rw [(TBuf.setDot_preserves _ _ _).1]
      show g4.bytes = b6.content
      exact hg4
  · -- Delete of a non-empty selection, then Undo, then Redo.
    intro b hwf h0 h01 h1L hal0 hal1 b2 n hdel'
    have hlenlen : b.len = b.buf.len := rfl
    have hclen : b.content.length = b.len := bytes_length b.buf
    have hrd : b.readDot.length = (b.q1 - b.q0).toNat :=
      TBuf.readDot_length b hwf h0 (le_of_lt h01) h1L
    obtain ⟨d2, hdel, hwfd, hdcon, hdlen, hdq0, hdq1, hdoff, hdwhat, hdhist⟩ :=
      TBuf.delete_nonempty_spec b hwf h0 h01 h1L
    rw [hdel] at hdel'
    injection hdel' with hpair
    injection hpair with hb2 hn
    subst hb2
    have hu : d2.history.undo = Except.ok
        ((⟨b.q0, HistoryAction.hInsert, b.readDot⟩ : Change),
         (⟨b.history.done_, [(⟨b.q0, HistoryAction.hDelete, b.readDot⟩ : Change)]⟩ : History)) := by
      rw [hdhist]
      exact TBuf.history_undo_concat (b.history.do_ ⟨b.q0, HistoryAction.hDelete, b.readDot⟩)
        b.history.done_ ⟨b.q0, HistoryAction.hDelete, b.readDot⟩ rfl
    set BU : TBuf := ({ d2 with history := (⟨b.history.done_, [(⟨b.q0, HistoryAction.hDelete, b.readDot⟩ : Change)]⟩ : History) }) with hBU
    have hdlen2 : d2.len = d2.buf.len := rfl
    obtain ⟨g3, hc3, hwf3, hby3, hln3⟩ := TBuf.commit_insert BU b.q0 b.readDot hwfd h0
      (by show b.q0.toNat ≤ d2.buf.len; omega)
    have hund : d2.undo = some ((({ BU with buf := g3 } : TBuf).setDot b.q0
        (b.q0 + ((b.readDot.length : Nat) : Int))).1, none) :=
      TBuf.undo_eq d2 ⟨b.q0, HistoryAction.hInsert, b.readDot⟩ _ _ _ hu hc3
    have htkA : ((b.content).take b.q0.toNat).length = b.q0.toNat := by
      rw [List.length_take]; omega
    have hg3 : g3.bytes = b.content := by
      have h1 : g3.bytes = (d2.content).take b.q0.toNat ++ b.readDot ++
          (d2.content).drop b.q0.toNat := hby3
      rw [h1, hdcon, List.take_left' htkA, List.drop_left' htkA,
        TBuf.readDot_spec b hwf h0 (le_of_lt h01) h1L, ← List.take_add]
      have hsum : b.q0.toNat + (b.q1 - b.q0).toNat = b.q1.toNat := by omega
      rw [hsum, List.take_append_drop]
    have hargs : b.q0 + ((b.readDot.length : Nat) : Int) = b.q1 := by
      rw [hrd]; omega
    have hax : ∀ x : Int, TBuf.byteAtD g3 x = TBuf.byteAtD b.buf x :=
      fun x => TBuf.byteAtD_congr2 g3 b.buf hwf3 hwf hg3 x
    have hlg3 : g3.len = b.len := by
      rw [← bytes_length g3, hg3]
      exact hclen
    have hsd : ((({ BU with buf := g3 } : TBuf).setDot b.q0
        (b.q0 + ((b.readDot.length : Nat) : Int))).1) =
        ({ BU with buf := g3, q0 := b.q0, q1 := b.q1 } : TBuf) := by
      rw [hargs]
      rw [TBuf.setDot_aligned ({ BU with buf := g3 } : TBuf) b.q0 b.q1 h0 (le_of_lt h01)
        (by show b.q1 ≤ ((g3.len : Nat) : Int); omega)
        (by show runeStartB (TBuf.byteAtD g3 b.q0) = true; rw [hax b.q0]; exact hal0)
        (by show runeStartB (TBuf.byteAtD g3 b.q1) = true; rw [hax b.q1]; exact hal1)]
    rw [hsd] at hund
    refine ⟨_, hund, ?_, ?_, ?_, ?_⟩
    · show g3.bytes = b.content
      exact hg3
    · rfl
    · rfl
    · -- Redo re-commits the Delete.
      set B3 : TBuf := ({ BU with buf := g3, q0 := b.q0, q1 := b.q1 } : TBuf) with hB3
      have hrd3 : B3.history.redo = Except.ok
          ((⟨b.q0, HistoryAction.hDelete, b.readDot⟩ : Change),
           (⟨b.history.done_ ++ [(⟨b.q0, HistoryAction.hDelete, b.readDot⟩ : Change)], ([] : List Change)⟩ : History)) :=
        TBuf.history_redo_concat _ [] _ rfl
      set BR : TBuf := ({ B3 with history := (⟨b.history.done_ ++ [(⟨b.q0, HistoryAction.hDelete, b.readDot⟩ : Change)], ([] : List Change)⟩ : History) }) with hBR
      obtain ⟨g4, hc4, hwf4, hby4, hln4⟩ := TBuf.commit_delete BR b.q0 b.readDot hwf3 h0
        (by show b.q0.toNat + b.readDot.length ≤ g3.len; omega)
      have hredo : B3.redo = some (((({ BR with buf := g4 } : TBuf)).setDot b.q0 b.q0).1, none) :=
        TBuf.redo_eq B3 ⟨b.q0, HistoryAction.hDelete, b.readDot⟩ _ _ _ hrd3 hc4
      refine ⟨_, hredo, ?_⟩
      have hg4 : g4.bytes = d2.content := by
        have h1 : g4.bytes = (BR.buf.bytes).take b.q0.toNat ++
            (BR.buf.bytes).drop (b.q0.toNat + b.readDot.length) := hby4
        have hsum : b.q0.toNat + b.readDot.length = b.q1.toNat := by omega
        have h2 : BR.buf.bytes = b.content := hg3
        rw [h1, h2, hsum, hdcon]
      show (((({ BR with buf := g4 } : TBuf)).setDot b.q0 b.q0).1).buf.bytes = d2.content
      rw [(TBuf.setDot_preserves _ _ _).1]
      show g4.bytes = d2.content
      exact hg4

/-- **C2** witness: deleting the selection `(0,5)` of `"hello"`, a
`Undo` restores content and selection and the following `Redo`
empties the buffer again. -/
theorem c2_witness :
    ∃ b3, sc3.undo = some (b3, none) ∧ b3.content = sc2.content ∧
      b3.q0 = sc2.q0 ∧ b3.q1 = sc2.q1 ∧
      ∃ b4, b3.redo = some (b4, none) ∧ b4.content = sc3.content :=
  c2_undo_redo_restore.2.1 sc2 (by decide) (by decide) (by decide) (by decide)
    (by decide) (by decide) sc3 5 (by decide)

end Poe
